import Mathlib

/-!
Verification of the tile caching and pause-control core
(`src/unnamed/part_000` of Wplace-SkirkMarble).

The development shallowly embeds the JavaScript module:
* a JS `Map` is an association list with JS `Map` semantics
  (`set` on a present key updates in place, otherwise appends;
  iteration order is insertion order; `delete` removes the entry);
* the module-level mutable variables (`smartTileCache`, `cacheAccessOrder`,
  `cacheHits`, `cacheMisses`, `smartTileCacheEnabled`, `frozenTileCache`,
  `tileRefreshPaused`, `isCapturingState`) become fields of explicit state
  records threaded through the operations;
* `Date.now()` becomes an explicit timestamp argument;
* `localStorage.setItem(CACHE_STATS_KEY, ...)` and
  `saveSmartTileCacheEnabled(...)` become write logs (`savedStats`,
  `savedEnabled`) recording, most recent first, what was persisted;
* the asynchronous external compositing operation
  (`originalDrawTemplateOnTile`) becomes an oracle
  `Blob → TileCoords → Except String Blob`, and each request additionally
  reports how many times the oracle was invoked.
-/

namespace WplaceTiles

/-! ## JS `Map` model -/

section JsMapModel

variable {κ : Type} {β : Type} [DecidableEq κ]

/-- JS `Map.prototype.set`: update the value in place when the key is
present (keeping its position), else append the new entry. -/
def mapSet : List (κ × β) → κ → β → List (κ × β)
  | [], k, v => [(k, v)]
  | e :: rest, k, v => if e.1 = k then (k, v) :: rest else e :: mapSet rest k v

/-- JS `Map.prototype.get` (first matching entry). -/
def mapGet : List (κ × β) → κ → Option β
  | [], _ => none
  | e :: rest, k => if e.1 = k then some e.2 else mapGet rest k

/-- JS `Map.prototype.delete`: remove the entry with the given key. -/
def mapDelete : List (κ × β) → κ → List (κ × β)
  | [], _ => []
  | e :: rest, k => if e.1 = k then rest else e :: mapDelete rest k

/-- The key list of a map, in iteration (= insertion) order. -/
def mapKeys (m : List (κ × β)) : List κ := m.map Prod.fst

end JsMapModel

/-! ## Smart tile cache state (module-level variables of the source) -/

/-- The mutable module state of the smart-cache subsystem, plus write logs
for the two persistence sinks it uses. -/
structure CacheState (κ ν : Type) where
  smartTileCacheEnabled : Bool
  smartTileCache : List (κ × ν)
  cacheAccessOrder : List (κ × Nat)
  cacheHits : Nat
  cacheMisses : Nat
  /-- log of `localStorage.setItem(CACHE_STATS_KEY, {hits, misses})` writes,
  most recent first. -/
  savedStats : List (Nat × Nat)
  /-- log of `saveSmartTileCacheEnabled` writes, most recent first. -/
  savedEnabled : List Bool
  deriving DecidableEq

/-- The constant `maxCacheSize = 500` of the source. -/
def maxCacheSize : Nat := 500

section CacheOps

variable {κ ν : Type} [DecidableEq κ]

/-- Source `updateCacheAccess`: `cacheAccessOrder.set(key, Date.now())`. -/
def updateCacheAccess (st : CacheState κ ν) (key : κ) (now : Nat) : CacheState κ ν :=
  { st with cacheAccessOrder := mapSet st.cacheAccessOrder key now }

/-- Insertion step of the stable ascending sort by access time.  The element
being inserted comes earlier in the original array than everything already
in the sorted suffix, so it is placed before entries with an equal
timestamp, matching the stability of JS `Array.prototype.sort`. -/
def insertByTime (e : κ × Nat) : List (κ × Nat) → List (κ × Nat)
  | [] => [e]
  | f :: rest => if f.2 < e.2 then f :: insertByTime e rest else e :: f :: rest

/-- Source `Array.from(cacheAccessOrder.entries()).sort(([,a],[,b]) => a - b)`:
a stable sort of the ledger entries by ascending access time.  Any stable
sort by a key is extensionally unique, so this insertion sort is a faithful
model of the JS engine's stable sort. -/
def sortByAccessTime (l : List (κ × Nat)) : List (κ × Nat) :=
  l.foldr insertByTime []

/-- Source `evictLRUEntries` (lines 119–134): no-op unless the store size
exceeds `maxCacheSize`; otherwise sort the ledger by access time and delete
the `size - maxCacheSize + 10` oldest entries from both store and ledger. -/
def evictLRUEntries (st : CacheState κ ν) : CacheState κ ν :=
  if st.smartTileCache.length ≤ maxCacheSize then st
  else
    let sortedEntries := sortByAccessTime st.cacheAccessOrder
    let entriesToRemove := sortedEntries.take (st.smartTileCache.length - maxCacheSize + 10)
    let cleaned := entriesToRemove.foldl
      (fun (p : List (κ × ν) × List (κ × Nat)) e =>
        (mapDelete p.1 e.1, mapDelete p.2 e.1))
      (st.smartTileCache, st.cacheAccessOrder)
    { st with smartTileCache := cleaned.1, cacheAccessOrder := cleaned.2 }

/-- Source `saveCacheStatistics`: persist `{hits, misses}` (modelled as a log). -/
def saveCacheStatistics (st : CacheState κ ν) : CacheState κ ν :=
  { st with savedStats := (st.cacheHits, st.cacheMisses) :: st.savedStats }

/-- Source `storeInSmartCache` (lines 141–156): no-op when the cache feature
is disabled; otherwise set the entry, update the access ledger, run
eviction, and persist statistics when `(hits + misses) % 50 === 0`. -/
def storeInSmartCache (st : CacheState κ ν) (cacheKey : κ) (processedTile : ν)
    (now : Nat) : CacheState κ ν :=
  if !st.smartTileCacheEnabled then st
  else
    let st1 := { st with smartTileCache := mapSet st.smartTileCache cacheKey processedTile }
    let st2 := updateCacheAccess st1 cacheKey now
    let st3 := evictLRUEntries st2
    if (st3.cacheHits + st3.cacheMisses) % 50 = 0 then saveCacheStatistics st3 else st3

/-- Source `getFromSmartCache` (lines 163–176): `none` when disabled; on a
hit update the access ledger and increment `cacheHits`; on a miss increment
`cacheMisses`. -/
def getFromSmartCache (st : CacheState κ ν) (cacheKey : κ) (now : Nat) :
    Option ν × CacheState κ ν :=
  if !st.smartTileCacheEnabled then (none, st)
  else
    match mapGet st.smartTileCache cacheKey with
    | some v =>
        (some v, { updateCacheAccess st cacheKey now with cacheHits := st.cacheHits + 1 })
    | none => (none, { st with cacheMisses := st.cacheMisses + 1 })

/-- Source `clearSmartTileCache` (lines 193–200): empty both maps, zero the
counters, persist the zeroed statistics. -/
def clearSmartTileCache (st : CacheState κ ν) : CacheState κ ν :=
  saveCacheStatistics
    { st with smartTileCache := [], cacheAccessOrder := [], cacheHits := 0, cacheMisses := 0 }

/-- Source `toggleSmartTileCache` (lines 222–232): flip the enabled flag,
persist it, and clear the cache when the new state is off.  Returns the new
flag together with the new state. -/
def toggleSmartTileCache (st : CacheState κ ν) : Bool × CacheState κ ν :=
  let st1 := { st with
    smartTileCacheEnabled := !st.smartTileCacheEnabled,
    savedEnabled := (!st.smartTileCacheEnabled) :: st.savedEnabled }
  let st2 := if !st1.smartTileCacheEnabled then clearSmartTileCache st1 else st1
  (st2.smartTileCacheEnabled, st2)

end CacheOps

/-- The smart-cache state right after the module loads: feature enabled,
both maps empty, zero counters, nothing persisted yet. -/
def initialCacheState (κ ν : Type) : CacheState κ ν :=
  { smartTileCacheEnabled := true, smartTileCache := [], cacheAccessOrder := [],
    cacheHits := 0, cacheMisses := 0, savedStats := [], savedEnabled := [] }

/-! ## Cache operation sequences -/

/-- One externally triggered smart-cache operation, with its `Date.now()`
timestamp where the source reads the clock. -/
inductive CacheOp (κ ν : Type) where
  | put (key : κ) (v : ν) (now : Nat)
  | get (key : κ) (now : Nat)
  | clear
  | toggle
  deriving DecidableEq

section RunOps

variable {κ ν : Type} [DecidableEq κ]

/-- Apply one operation to the cache state. -/
def applyOp (st : CacheState κ ν) : CacheOp κ ν → CacheState κ ν
  | .put k v t => storeInSmartCache st k v t
  | .get k t => (getFromSmartCache st k t).2
  | .clear => clearSmartTileCache st
  | .toggle => (toggleSmartTileCache st).2

/-- Run a sequence of operations. -/
def runOps (st : CacheState κ ν) (ops : List (CacheOp κ ν)) : CacheState κ ν :=
  ops.foldl applyOp st

/-- A `put` operation from a `(key, value, timestamp)` triple. -/
def putOp (p : κ × ν × Nat) : CacheOp κ ν := .put p.1 p.2.1 p.2.2

end RunOps

/-! ## Cache key generation (`generateCacheKey`, source lines 81–106) -/

/-- A JS `Blob`, as far as the module inspects it: `size` and `type`. -/
structure Blob where
  size : Nat
  type : String
  deriving DecidableEq

/-- A template descriptor as the key generator reads it.  Fields are
optional to mirror JS property absence; JS truthiness defaults
(`name || 'unnamed'`, `sortID || 0`) and the `enabled !== false` filter are
applied at use sites. -/
structure Template where
  name : Option String
  sortID : Option Nat
  enabled : Option Bool
  deriving DecidableEq

/-- Source `template.enabled !== false`: a template participates unless its
`enabled` property is explicitly `false`. -/
def templateIsActive (t : Template) : Bool := t.enabled != some false

/-- The mapped string of one template:
`(template.name || 'unnamed') + '_' + (template.sortID || 0)`.
A JS empty-string name is falsy, hence also defaults to `"unnamed"`;
`sortID` zero or absent both give `0`. -/
def templateSummary (t : Template) : String :=
  (match t.name with
   | some s => if s = "" then "unnamed" else s
   | none => "unnamed") ++ "_" ++ toString (t.sortID.getD 0)

/-- Lexicographic strict comparison of character lists, by code point. -/
def charListLt : List Char → List Char → Bool
  | [], [] => false
  | [], _ :: _ => true
  | _ :: _, [] => false
  | a :: as, b :: bs => if a < b then true else if b < a then false else charListLt as bs

/-- The JS `<` on strings: lexicographic by code unit (code point on the
Basic Multilingual Plane). -/
def jsStringLt (a b : String) : Bool := charListLt a.data b.data

/-- Insertion step of the stable lexicographic sort used for the template
summaries (JS default `Array.prototype.sort`). -/
def insertSorted (s : String) : List String → List String
  | [] => [s]
  | x :: rest => if jsStringLt x s then x :: insertSorted s rest else s :: x :: rest

/-- Source `.sort()` on an array of strings: stable ascending lexicographic sort.
Lean's `String` order is lexicographic by code point, which agrees with the
JS UTF-16 order on the Basic Multilingual Plane. -/
def sortStrings (l : List String) : List String :=
  l.foldr insertSorted []

/-- Source `.join('|')` of JS arrays. -/
def joinBar : List String → String
  | [] => ""
  | [s] => s
  | s :: rest => s ++ "|" ++ joinBar rest

/-- Tile coordinates as the module receives them: either an array pair or
something coerced to a string (`Array.isArray(tileCoords) ? ... :
tileCoords.toString()`). -/
inductive TileCoords where
  | arr (x y : Nat)
  | other (s : String)
  deriving DecidableEq

/-- Source `n.toString().padStart(4, '0')`. -/
def padStart4 (s : String) : String :=
  if 4 ≤ s.length then s else String.mk (List.replicate (4 - s.length) '0') ++ s

/-- The normalized coordinate key, identical in `generateCacheKey` and in
both strategy bodies (source lines 83–85, 281–283, 312–314, 349–351). -/
def coordsKeyOf : TileCoords → String
  | .arr x y => padStart4 (toString x) ++ "," ++ padStart4 (toString y)
  | .other s => s

/-- The template segment of the key: for a nonempty template array, the
summaries of the active templates, sorted, joined with `'|'`; otherwise the
empty string. -/
def templateHashOf (templateArray : List Template) : String :=
  if 0 < templateArray.length then
    joinBar (sortStrings ((templateArray.filter templateIsActive).map templateSummary))
  else ""

/-- The content segment: `` `${tileBlob.size}_${tileBlob.type}` `` when the
blob is present with a truthy (nonzero) size, else the sentinel
`"nodata"`. -/
def contentHashOf (tileBlob : Option Blob) : String :=
  match tileBlob with
  | some b => if b.size ≠ 0 then toString b.size ++ "_" ++ b.type else "nodata"
  | none => "nodata"

/-- Source `generateCacheKey` (lines 81–106). -/
def generateCacheKey (tileCoords : TileCoords) (templateArray : List Template)
    (tileBlob : Option Blob) : String :=
  coordsKeyOf tileCoords ++ "_" ++ templateHashOf templateArray ++ "_" ++
    contentHashOf tileBlob

/-! ## Tile request handling (pause controller) -/

/-- The state the installed `drawTemplateOnTile` handler reads and writes:
the pause flag, the re-entrancy guard, the frozen snapshot store, and the
smart-cache state. -/
structure TileState where
  tileRefreshPaused : Bool
  isCapturingState : Bool
  frozenTileCache : List (String × Blob)
  cache : CacheState String Blob
  deriving DecidableEq

/-- The frozen-store insertion of the running handler (source lines
352–358): `frozenTileCache.set(tileKey, result)`, then if the size exceeds
100, delete the first key in iteration order (the oldest-inserted entry). -/
def frozenInsert (m : List (String × Blob)) (k : String) (v : Blob) :
    List (String × Blob) :=
  let m1 := mapSet m k v
  if 100 < m1.length then
    match m1.head? with
    | some kv => mapDelete m1 kv.1
    | none => m1
  else m1

/-- The result of one compositing request: the returned (or rejected)
payload, the state afterwards, and how many times the external compositing
operation was invoked. -/
def drawTemplateOnTile (st : TileState)
    (compositor : Blob → TileCoords → Except String Blob)
    (templatesArray : List Template) (tileBlob : Blob) (tileCoords : TileCoords)
    (now : Nat) : Except String Blob × TileState × Nat :=
  if st.tileRefreshPaused then
    -- Paused strategy (source lines 310–325): serve from the frozen
    -- snapshot store by normalized coordinate, else return the input.
    let tileKey := coordsKeyOf tileCoords
    match mapGet st.frozenTileCache tileKey with
    | some v => (Except.ok v, st, 0)
    | none => (Except.ok tileBlob, st, 0)
  else
    -- Running strategy (source lines 329–362): probe the smart cache,
    -- otherwise invoke the compositor and write through to both stores.
    let cacheKey := generateCacheKey tileCoords templatesArray (some tileBlob)
    let probe :=
      if st.cache.smartTileCacheEnabled then getFromSmartCache st.cache cacheKey now
      else (none, st.cache)
    match probe.1 with
    | some v => (Except.ok v, { st with cache := probe.2 }, 0)
    | none =>
      match compositor tileBlob tileCoords with
      | Except.error e => (Except.error e, { st with cache := probe.2 }, 1)
      | Except.ok result =>
        let st1 : TileState := { st with cache := probe.2 }
        if !st1.tileRefreshPaused && !st1.isCapturingState &&
            st1.cache.smartTileCacheEnabled then
          let cache2 := storeInSmartCache st1.cache cacheKey result now
          let tileKey := coordsKeyOf tileCoords
          (Except.ok result,
            { st1 with cache := cache2,
                       frozenTileCache := frozenInsert st1.frozenTileCache tileKey result },
            1)
        else (Except.ok result, st1, 1)

/-- A fresh tile-management state: running, not capturing, empty stores. -/
def initialTileState : TileState :=
  { tileRefreshPaused := false, isCapturingState := false, frozenTileCache := [],
    cache := initialCacheState String Blob }

/-- Run a list of compositing requests `(blob, coords, now)` against a fixed
compositor and template array, keeping only the final state. -/
def runDraws (st : TileState) (compositor : Blob → TileCoords → Except String Blob)
    (templatesArray : List Template) (reqs : List (Blob × TileCoords × Nat)) :
    TileState :=
  reqs.foldl
    (fun s r => (drawTemplateOnTile s compositor templatesArray r.1 r.2.1 r.2.2).2.1) st

/-- The order in which `sortStrings` leaves its output: `a` before `b` means
`b` is not strictly smaller than `a`. -/
def strLeB (a b : String) : Prop := jsStringLt b a = false

/-- Removal of one key from a key list, mirroring `mapDelete` on `mapKeys`. -/
def eraseKey {κ : Type} [DecidableEq κ] : List κ → κ → List κ
  | [], _ => []
  | a :: rest, k => if a = k then rest else a :: eraseKey rest k

/-- The internal consistency invariant of the smart cache: the store and the
access ledger list exactly the same keys in the same order, the keys are
distinct, and the store is within capacity. -/
def CacheInv {κ ν : Type} (st : CacheState κ ν) : Prop :=
  mapKeys st.smartTileCache = mapKeys st.cacheAccessOrder ∧
  (mapKeys st.smartTileCache).Nodup ∧
  st.smartTileCache.length ≤ maxCacheSize

/-- Replace the `enabled` flags of a template list by an explicit mask,
leaving names and sort identifiers untouched (used to speak about two
requests identical except in which templates are enabled). -/
def applyMask : List Template → List Bool → List Template
  | [], _ => []
  | _, [] => []
  | t :: ts, b :: bs => { t with enabled := some b } :: applyMask ts bs

/-- Select, in order, the elements of a list picked by a boolean mask. -/
def selectMask {α : Type} : List α → List Bool → List α
  | [], _ => []
  | _, [] => []
  | s :: ss, b :: bs => if b then s :: selectMask ss bs else selectMask ss bs

/-! ## Association-map lemmas -/

section MapLemmas

variable {κ : Type} {β : Type} [DecidableEq κ]

theorem mapKeys_mapSet (m : List (κ × β)) (k : κ) (v : β) :
    mapKeys (mapSet m k v) = if k ∈ mapKeys m then mapKeys m else mapKeys m ++ [k] := by
  induction m with
  | nil => simp [mapSet, mapKeys]
  | cons e rest ih =>
    by_cases h : e.1 = k
    · simp [mapSet, mapKeys, h]
    · simp only [mapSet, if_neg h, mapKeys, List.map_cons, List.mem_cons]
      rw [mapKeys] at ih
      by_cases hm : k ∈ rest.map Prod.fst
      · simp [hm, Ne.symm h, ih, mapKeys]
      · simp [hm, Ne.symm h, ih, mapKeys]

theorem mapSet_of_not_mem {m : List (κ × β)} {k : κ} (v : β)
    (h : k ∉ mapKeys m) : mapSet m k v = m ++ [(k, v)] := by
  induction m with
  | nil => rfl
  | cons e rest ih =>
    simp only [mapKeys, List.map_cons, List.mem_cons] at h
    push_neg at h
    have hne : ¬ e.1 = k := fun hh => h.1 hh.symm
    simp [mapSet, if_neg hne, ih h.2]

theorem mapGet_eq_none_iff (m : List (κ × β)) (k : κ) :
    mapGet m k = none ↔ k ∉ mapKeys m := by
  induction m with
  | nil => simp [mapGet, mapKeys]
  | cons e rest ih =>
    by_cases h : e.1 = k
    · simp [mapGet, h, mapKeys]
    · simp only [mapGet, if_neg h, mapKeys, List.map_cons, List.mem_cons]
      rw [mapKeys] at ih
      rw [ih]
      constructor
      · intro hk
        push_neg
        exact ⟨fun hh => h hh.symm, hk⟩
      · intro hk
        push_neg at hk
        exact hk.2

theorem mapKeys_mapDelete (m : List (κ × β)) (k : κ) :
    mapKeys (mapDelete m k) = eraseKey (mapKeys m) k := by
  induction m with
  | nil => rfl
  | cons e rest ih =>
    by_cases h : e.1 = k
    · simp [mapDelete, h, mapKeys, eraseKey]
    · rw [mapKeys] at ih
      simp [mapDelete, h, mapKeys, eraseKey, ih]

theorem eraseKey_of_not_mem {l : List κ} {k : κ} (h : k ∉ l) : eraseKey l k = l := by
  induction l with
  | nil => rfl
  | cons a rest ih =>
    simp only [List.mem_cons] at h
    push_neg at h
    simp [eraseKey, Ne.symm h.1, ih h.2]

theorem eraseKey_sublist (l : List κ) (k : κ) : (eraseKey l k).Sublist l := by
  induction l with
  | nil => simp [eraseKey]
  | cons a rest ih =>
    by_cases h : a = k
    · simpa [eraseKey, h] using List.sublist_cons_self a rest
    · simp only [eraseKey, if_neg h]
      exact ih.cons₂ a

theorem nodup_eraseKey {l : List κ} (k : κ) (h : l.Nodup) : (eraseKey l k).Nodup :=
  (eraseKey_sublist l k).nodup h

theorem length_eraseKey_of_mem {l : List κ} {k : κ} (h : k ∈ l) :
    (eraseKey l k).length + 1 = l.length := by
  induction l with
  | nil => cases h
  | cons a rest ih =>
    by_cases ha : a = k
    · simp [eraseKey, ha]
    · have : k ∈ rest := by
        rcases List.mem_cons.mp h with h1 | h1
        · exact absurd h1.symm ha
        · exact h1
      simp [eraseKey, ha, ih this]

theorem mem_eraseKey_of_ne {l : List κ} {x k : κ} (hx : x ∈ l) (hne : x ≠ k) :
    x ∈ eraseKey l k := by
  induction l with
  | nil => cases hx
  | cons a rest ih =>
    by_cases ha : a = k
    · simp only [eraseKey, if_pos ha]
      rcases List.mem_cons.mp hx with h1 | h1
      · exact absurd (h1.trans ha) hne
      · exact h1
    · simp only [eraseKey, if_neg ha, List.mem_cons]
      rcases List.mem_cons.mp hx with h1 | h1
      · exact Or.inl h1
      · exact Or.inr (ih h1)

end MapLemmas

/-! ## Lemmas on the access-time sort and on folded deletions -/

section SortFoldLemmas

variable {κ : Type} {β : Type} [DecidableEq κ]

theorem insertByTime_perm (e : κ × Nat) (l : List (κ × Nat)) :
    List.Perm (insertByTime e l) (e :: l) := by
  induction l with
  | nil => simp [insertByTime]
  | cons f rest ih =>
    by_cases h : f.2 < e.2
    · simp only [insertByTime, if_pos h]
      exact (ih.cons f).trans (List.Perm.swap e f rest)
    · simp [insertByTime, if_neg h]

theorem sortByAccessTime_perm (l : List (κ × Nat)) :
    List.Perm (sortByAccessTime l) l := by
  induction l with
  | nil => simp [sortByAccessTime]
  | cons e rest ih =>
    have : sortByAccessTime (e :: rest) = insertByTime e (sortByAccessTime rest) := rfl
    rw [this]
    exact (insertByTime_perm e (sortByAccessTime rest)).trans (ih.cons e)

theorem sortByAccessTime_eq_self {l : List (κ × Nat)}
    (h : l.Pairwise (fun a b => a.2 ≤ b.2)) : sortByAccessTime l = l := by
  induction l with
  | nil => rfl
  | cons e rest ih =>
    have hstep : sortByAccessTime (e :: rest) = insertByTime e (sortByAccessTime rest) := rfl
    rw [hstep, ih (List.Pairwise.of_cons h)]
    cases rest with
    | nil => rfl
    | cons f rest2 =>
      have hef : e.2 ≤ f.2 := (List.pairwise_cons.mp h).1 f (List.mem_cons_self f rest2)
      simp [insertByTime, Nat.not_lt.mpr hef]

theorem foldl_pair_delete {ν : Type} (l : List (κ × Nat))
    (m1 : List (κ × ν)) (m2 : List (κ × Nat)) :
    l.foldl (fun (p : List (κ × ν) × List (κ × Nat)) e =>
        (mapDelete p.1 e.1, mapDelete p.2 e.1)) (m1, m2)
      = (l.foldl (fun m e => mapDelete m e.1) m1,
         l.foldl (fun m e => mapDelete m e.1) m2) := by
  induction l generalizing m1 m2 with
  | nil => rfl
  | cons e rest ih => simp [List.foldl_cons, ih]

theorem foldl_mapDelete_map (l : List (κ × Nat)) (m : List (κ × β)) :
    l.foldl (fun m e => mapDelete m e.1) m
      = (l.map Prod.fst).foldl mapDelete m := by
  induction l generalizing m with
  | nil => rfl
  | cons e rest ih => simp [List.foldl_cons, ih]

theorem mapKeys_foldl_mapDelete (ks : List κ) (m : List (κ × β)) :
    mapKeys (ks.foldl mapDelete m) = ks.foldl eraseKey (mapKeys m) := by
  induction ks generalizing m with
  | nil => rfl
  | cons k rest ih => simp [List.foldl_cons, ih, mapKeys_mapDelete]

theorem length_foldl_eraseKey {ks : List κ} {L : List κ}
    (hnd : ks.Nodup) (hmem : ∀ k ∈ ks, k ∈ L) :
    (ks.foldl eraseKey L).length + ks.length = L.length := by
  induction ks generalizing L with
  | nil => simp
  | cons k rest ih =>
    simp only [List.foldl_cons, List.length_cons]
    have hk : k ∈ L := hmem k (List.mem_cons_self k rest)
    have hrest : ∀ x ∈ rest, x ∈ eraseKey L k := by
      intro x hx
      have hne : x ≠ k := by
        intro hxk
        exact (List.nodup_cons.mp hnd).1 (hxk ▸ hx)
      exact mem_eraseKey_of_ne (hmem x (List.mem_cons_of_mem k hx)) hne
    have h1 := ih (List.nodup_cons.mp hnd).2 hrest
    have h2 := length_eraseKey_of_mem hk
    omega

theorem nodup_foldl_eraseKey {ks : List κ} {L : List κ} (h : L.Nodup) :
    (ks.foldl eraseKey L).Nodup := by
  induction ks generalizing L with
  | nil => exact h
  | cons k rest ih => exact ih (nodup_eraseKey k h)

theorem foldl_mapDelete_prefix (a b : List (κ × β))
    (hnd : ((a ++ b).map Prod.fst).Nodup) :
    ((a.map Prod.fst).foldl mapDelete (a ++ b)) = b := by
  induction a with
  | nil => rfl
  | cons e rest ih =>
    simp only [List.map_cons, List.foldl_cons, List.cons_append]
    have h1 : mapDelete (e :: (rest ++ b)) e.1 = rest ++ b := by
      simp [mapDelete]
    rw [h1]
    exact ih (by simpa using (List.nodup_cons.mp (by simpa using hnd)).2)

end SortFoldLemmas

/-! ## The LRU store/ledger invariant -/

section CacheInvariant

variable {κ ν : Type} [DecidableEq κ]

theorem mapKeys_length {β : Type} (m : List (κ × β)) :
    (mapKeys m).length = m.length := List.length_map m Prod.fst

theorem evict_of_le {st : CacheState κ ν}
    (h : st.smartTileCache.length ≤ maxCacheSize) : evictLRUEntries st = st := by
  simp [evictLRUEntries, h]

theorem evict_of_gt {st : CacheState κ ν}
    (hkeys : mapKeys st.smartTileCache = mapKeys st.cacheAccessOrder)
    (hnd : (mapKeys st.smartTileCache).Nodup)
    (hgt : maxCacheSize < st.smartTileCache.length) :
    mapKeys (evictLRUEntries st).smartTileCache
        = mapKeys (evictLRUEntries st).cacheAccessOrder ∧
    (mapKeys (evictLRUEntries st).smartTileCache).Nodup ∧
    (evictLRUEntries st).smartTileCache.length = 490 := by
  have hnle : ¬ st.smartTileCache.length ≤ maxCacheSize := Nat.not_le.mpr hgt
  set n := st.smartTileCache.length with hn
  set t := n - maxCacheSize + 10 with ht
  set sortedEntries := sortByAccessTime st.cacheAccessOrder with hsorted
  set ks := (sortedEntries.take t).map Prod.fst with hks
  have hperm : List.Perm sortedEntries st.cacheAccessOrder :=
    sortByAccessTime_perm st.cacheAccessOrder
  have hkperm : List.Perm (sortedEntries.map Prod.fst) (mapKeys st.cacheAccessOrder) :=
    hperm.map Prod.fst
  have hndl : (mapKeys st.cacheAccessOrder).Nodup := hkeys ▸ hnd
  have hndsorted : (sortedEntries.map Prod.fst).Nodup := hkperm.nodup_iff.mpr hndl
  have hsub : (List.map Prod.fst (List.take t sortedEntries)).Sublist
      (List.map Prod.fst sortedEntries) :=
    (List.take_sublist t sortedEntries).map Prod.fst
  have hksnd : ks.Nodup := hsub.nodup hndsorted
  have hksmem : ∀ k ∈ ks, k ∈ mapKeys st.smartTileCache := by
    intro k hk
    rw [hkeys]
    exact hkperm.mem_iff.mp (hsub.mem hk)
  have hkslen : ks.length = t := by
    rw [hks, List.length_map, List.length_take]
    have hledlen : st.cacheAccessOrder.length = n := by
      rw [← mapKeys_length st.cacheAccessOrder, ← hkeys, mapKeys_length]
    have hsortlen : sortedEntries.length = n := hperm.length_eq.trans hledlen
    rw [hsortlen]
    have : t ≤ n := by
      rw [ht]
      unfold maxCacheSize at hgt ⊢
      omega
    omega
  have hstep : evictLRUEntries st =
      { st with
        smartTileCache := ks.foldl mapDelete st.smartTileCache,
        cacheAccessOrder := ks.foldl mapDelete st.cacheAccessOrder } := by
    rw [evictLRUEntries]
    rw [if_neg hnle]
    simp only [foldl_pair_delete, foldl_mapDelete_map]
  rw [hstep]
  refine ⟨?_, ?_, ?_⟩
  · simp only [mapKeys_foldl_mapDelete, hkeys]
  · simp only [mapKeys_foldl_mapDelete]
    exact nodup_foldl_eraseKey hnd
  · have hlen : (ks.foldl eraseKey (mapKeys st.smartTileCache)).length + ks.length
        = (mapKeys st.smartTileCache).length := length_foldl_eraseKey hksnd hksmem
    have h1 : (ks.foldl mapDelete st.smartTileCache).length
        = (mapKeys (ks.foldl mapDelete st.smartTileCache)).length :=
      (mapKeys_length _).symm
    rw [h1, mapKeys_foldl_mapDelete]
    rw [mapKeys_length] at hlen
    rw [hkslen] at hlen
    unfold maxCacheSize at hgt ht
    omega

theorem nodup_keysInsert {K : List κ} (k : κ) (h : K.Nodup) :
    (if k ∈ K then K else K ++ [k]).Nodup := by
  by_cases hk : k ∈ K
  · simpa [hk]
  · simp only [if_neg hk]
    simp [List.nodup_append, h, hk]

theorem CacheInv_save {st : CacheState κ ν} (h : CacheInv st) :
    CacheInv (saveCacheStatistics st) := h

theorem storeInSmartCache_inv {st : CacheState κ ν} (k : κ) (v : ν) (now : Nat)
    (h : CacheInv st) : CacheInv (storeInSmartCache st k v now) := by
  obtain ⟨hkeys, hnd, hlen⟩ := h
  rw [storeInSmartCache]
  by_cases hen : st.smartTileCacheEnabled
  · have hcond : (!st.smartTileCacheEnabled) = false := by rw [hen]; rfl
    rw [hcond]
    simp only [Bool.false_eq_true, if_false]
    set st2 : CacheState κ ν :=
      updateCacheAccess { st with smartTileCache := mapSet st.smartTileCache k v } k now
      with hst2
    have hkeys2 : mapKeys st2.smartTileCache = mapKeys st2.cacheAccessOrder := by
      rw [hst2]
      simp only [updateCacheAccess]
      rw [mapKeys_mapSet, mapKeys_mapSet, hkeys]
    have hnd2 : (mapKeys st2.smartTileCache).Nodup := by
      rw [hst2]
      simp only [updateCacheAccess]
      rw [mapKeys_mapSet]
      exact nodup_keysInsert k hnd
    have hlen2 : st2.smartTileCache.length ≤ maxCacheSize + 1 := by
      rw [hst2]
      simp only [updateCacheAccess]
      have := mapKeys_length (mapSet st.smartTileCache k v)
      rw [mapKeys_mapSet] at this
      by_cases hk : k ∈ mapKeys st.smartTileCache
      · rw [if_pos hk] at this
        rw [mapKeys_length] at this
        omega
      · rw [if_neg hk] at this
        simp only [List.length_append, List.length_cons, List.length_nil] at this
        rw [mapKeys_length] at this
        omega
    have hinv3 : CacheInv (evictLRUEntries st2) := by
      by_cases hc : st2.smartTileCache.length ≤ maxCacheSize
      · rw [evict_of_le hc]
        exact ⟨hkeys2, hnd2, hc⟩
      · have := evict_of_gt hkeys2 hnd2 (Nat.not_le.mp hc)
        refine ⟨this.1, this.2.1, ?_⟩
        rw [this.2.2]
        unfold maxCacheSize
        omega
    by_cases hmod : ((evictLRUEntries st2).cacheHits + (evictLRUEntries st2).cacheMisses) % 50 = 0
    · rw [if_pos hmod]
      exact CacheInv_save hinv3
    · rw [if_neg hmod]
      exact hinv3
  · simp only [Bool.not_eq_true] at hen
    simp [hen]
    exact ⟨hkeys, hnd, hlen⟩

theorem getFromSmartCache_inv {st : CacheState κ ν} (k : κ) (now : Nat)
    (h : CacheInv st) : CacheInv (getFromSmartCache st k now).2 := by
  obtain ⟨hkeys, hnd, hlen⟩ := h
  rw [getFromSmartCache]
  by_cases hen : st.smartTileCacheEnabled
  · simp only [hen, Bool.not_true, Bool.false_eq_true, if_false]
    cases hget : mapGet st.smartTileCache k with
    | none => exact ⟨hkeys, hnd, hlen⟩
    | some v =>
      have hk : k ∈ mapKeys st.smartTileCache := by
        by_contra hk
        rw [(mapGet_eq_none_iff st.smartTileCache k).mpr hk] at hget
        cases hget
      have hk' : k ∈ mapKeys st.cacheAccessOrder := hkeys ▸ hk
      refine ⟨?_, hnd, hlen⟩
      simp only [updateCacheAccess]
      rw [mapKeys_mapSet, if_pos hk']
      exact hkeys
  · simp only [Bool.not_eq_true] at hen
    simp [hen]
    exact ⟨hkeys, hnd, hlen⟩

theorem clearSmartTileCache_inv (st : CacheState κ ν) :
    CacheInv (clearSmartTileCache st) := by
  refine ⟨rfl, List.nodup_nil, ?_⟩
  simp [clearSmartTileCache, saveCacheStatistics, maxCacheSize]

theorem toggleSmartTileCache_inv {st : CacheState κ ν} (h : CacheInv st) :
    CacheInv (toggleSmartTileCache st).2 := by
  rw [toggleSmartTileCache]
  by_cases hen : st.smartTileCacheEnabled
  · simp only [hen]
    exact clearSmartTileCache_inv _
  · simp only [Bool.not_eq_true] at hen
    simp only [hen]
    simpa using h

theorem applyOp_inv {st : CacheState κ ν} (op : CacheOp κ ν) (h : CacheInv st) :
    CacheInv (applyOp st op) := by
  cases op with
  | put k v t => exact storeInSmartCache_inv k v t h
  | get k t => exact getFromSmartCache_inv k t h
  | clear => exact clearSmartTileCache_inv st
  | toggle => exact toggleSmartTileCache_inv h

theorem runOps_inv {st : CacheState κ ν} (ops : List (CacheOp κ ν))
    (h : CacheInv st) : CacheInv (runOps st ops) := by
  induction ops generalizing st with
  | nil => exact h
  | cons op rest ih => exact ih (applyOp_inv op h)

theorem initialCacheState_inv : CacheInv (initialCacheState κ ν) :=
  ⟨rfl, List.nodup_nil, by simp [initialCacheState, maxCacheSize]⟩

end CacheInvariant

/-! ## Field-preservation lemmas -/

section FieldLemmas

variable {κ ν : Type} [DecidableEq κ]

theorem evict_savedStats (st : CacheState κ ν) :
    (evictLRUEntries st).savedStats = st.savedStats := by
  unfold evictLRUEntries
  split <;> rfl

theorem evict_cacheHits (st : CacheState κ ν) :
    (evictLRUEntries st).cacheHits = st.cacheHits := by
  unfold evictLRUEntries
  split <;> rfl

theorem evict_cacheMisses (st : CacheState κ ν) :
    (evictLRUEntries st).cacheMisses = st.cacheMisses := by
  unfold evictLRUEntries
  split <;> rfl

theorem evict_enabled (st : CacheState κ ν) :
    (evictLRUEntries st).smartTileCacheEnabled = st.smartTileCacheEnabled := by
  unfold evictLRUEntries
  split <;> rfl

theorem mapDelete_cons_self {β : Type} (e : κ × β) (rest : List (κ × β)) :
    mapDelete (e :: rest) e.1 = rest := by
  simp [mapDelete]

end FieldLemmas

/-! ## Frozen snapshot store lemmas -/

section FrozenLemmas

theorem frozenInsert_fifo {m : List (String × Blob)} {k : String} (v : Blob)
    (hfresh : k ∉ mapKeys m) (hfull : m.length = 100) :
    frozenInsert m k v = m.tail ++ [(k, v)] := by
  rw [frozenInsert, mapSet_of_not_mem v hfresh]
  have hlen : (m ++ [(k, v)]).length = 101 := by simp [hfull]
  rw [if_pos (by rw [hlen]; omega)]
  cases m with
  | nil => simp at hfull
  | cons e rest =>
    have hhead : ((e :: rest) ++ [(k, v)]).head? = some e := rfl
    rw [hhead]
    simpa using mapDelete_cons_self e (rest ++ [(k, v)])

theorem frozenInsert_length {m : List (String × Blob)} {k : String} (v : Blob)
    (hnd : (mapKeys m).Nodup) (hle : m.length ≤ 100) :
    (frozenInsert m k v).length ≤ 100 := by
  by_cases hk : k ∈ mapKeys m
  · have hset : (mapSet m k v).length = m.length := by
      have := mapKeys_length (mapSet m k v)
      rw [mapKeys_mapSet, if_pos hk, mapKeys_length] at this
      omega
    rw [frozenInsert, if_neg (by rw [hset]; omega)]
    omega
  · rw [frozenInsert, mapSet_of_not_mem v hk]
    by_cases hfull : 100 < (m ++ [(k, v)]).length
    · rw [if_pos hfull]
      cases m with
      | nil => simp at hfull
      | cons e rest =>
        have hhead : ((e :: rest) ++ [(k, v)]).head? = some e := rfl
        rw [hhead]
        have := mapDelete_cons_self e (rest ++ [(k, v)])
        simp only [List.cons_append] at this ⊢
        rw [this]
        simp only [List.length_cons] at hle
        simp only [List.length_append, List.length_cons, List.length_nil] at hfull ⊢
        omega
    · rw [if_neg hfull]
      omega

theorem frozenInsert_nodup {m : List (String × Blob)} {k : String} (v : Blob)
    (hnd : (mapKeys m).Nodup) : (mapKeys (frozenInsert m k v)).Nodup := by
  rw [frozenInsert]
  have hset : (mapKeys (mapSet m k v)).Nodup := by
    rw [mapKeys_mapSet]
    exact nodup_keysInsert k hnd
  by_cases hfull : 100 < (mapSet m k v).length
  · rw [if_pos hfull]
    cases hh : (mapSet m k v).head? with
    | none => exact hset
    | some kv =>
      rw [mapKeys_mapDelete]
      exact nodup_eraseKey kv.1 hset
  · rw [if_neg hfull]
    exact hset

/-- Along one compositing request the frozen store is either untouched or
updated through `frozenInsert` at the normalized coordinate key. -/
theorem draw_frozen_cases (st : TileState)
    (compositor : Blob → TileCoords → Except String Blob)
    (templatesArray : List Template) (tileBlob : Blob) (tileCoords : TileCoords)
    (now : Nat) :
    (drawTemplateOnTile st compositor templatesArray tileBlob tileCoords now).2.1.frozenTileCache
        = st.frozenTileCache ∨
    ∃ r : Blob,
      (drawTemplateOnTile st compositor templatesArray tileBlob tileCoords now).2.1.frozenTileCache
        = frozenInsert st.frozenTileCache (coordsKeyOf tileCoords) r := by
  simp only [drawTemplateOnTile]
  by_cases hp : st.tileRefreshPaused = true
  · simp only [hp, if_true]
    cases mapGet st.frozenTileCache (coordsKeyOf tileCoords) <;> simp
  · simp only [Bool.not_eq_true] at hp
    simp only [hp, Bool.false_eq_true, if_false]
    by_cases hen : st.cache.smartTileCacheEnabled = true
    · simp only [hen, if_true]
      cases hprobe : (getFromSmartCache st.cache
          (generateCacheKey tileCoords templatesArray (some tileBlob)) now).1 with
      | some v => simp [hprobe]
      | none =>
        simp only [hprobe]
        cases hcomp : compositor tileBlob tileCoords with
        | error e => simp [hcomp]
        | ok r =>
          simp only [hcomp]
          split
          · exact Or.inr ⟨r, rfl⟩
          · exact Or.inl rfl
    · simp only [Bool.not_eq_true] at hen
      simp only [hen, Bool.false_eq_true, if_false]
      cases hcomp : compositor tileBlob tileCoords with
      | error e => simp [hcomp]
      | ok r => simp [hcomp, hen]

/-- The frozen-store wellformedness `(nodup keys, size ≤ 100)` is preserved
by each compositing request. -/
theorem draw_frozen_inv {st : TileState}
    (compositor : Blob → TileCoords → Except String Blob)
    (templatesArray : List Template) (tileBlob : Blob) (tileCoords : TileCoords)
    (now : Nat)
    (h : (mapKeys st.frozenTileCache).Nodup ∧ st.frozenTileCache.length ≤ 100) :
    (mapKeys (drawTemplateOnTile st compositor templatesArray tileBlob
        tileCoords now).2.1.frozenTileCache).Nodup ∧
    (drawTemplateOnTile st compositor templatesArray tileBlob
        tileCoords now).2.1.frozenTileCache.length ≤ 100 := by
  rcases draw_frozen_cases st compositor templatesArray tileBlob tileCoords now with
    hcase | ⟨r, hcase⟩
  · rw [hcase]
    exact h
  · rw [hcase]
    exact ⟨frozenInsert_nodup r h.1, frozenInsert_length r h.1 h.2⟩

theorem runDraws_frozen_inv (st : TileState)
    (compositor : Blob → TileCoords → Except String Blob)
    (templatesArray : List Template) (reqs : List (Blob × TileCoords × Nat))
    (h : (mapKeys st.frozenTileCache).Nodup ∧ st.frozenTileCache.length ≤ 100) :
    (mapKeys (runDraws st compositor templatesArray reqs).frozenTileCache).Nodup ∧
    (runDraws st compositor templatesArray reqs).frozenTileCache.length ≤ 100 := by
  induction reqs generalizing st with
  | nil => exact h
  | cons r rest ih =>
    exact ih _ (draw_frozen_inv compositor templatesArray r.1 r.2.1 r.2.2 h)

end FrozenLemmas

/-! ## Exact characterization of put sequences (for the eviction scenario) -/

section PutSequences

variable {κ ν : Type} [DecidableEq κ]

theorem map_fst_pairs (X : List (κ × ν × Nat)) :
    (X.map (fun p => (p.1, p.2.1))).map Prod.fst = X.map (fun p => p.1) := by
  rw [List.map_map]
  rfl

theorem map_fst_ledg (X : List (κ × ν × Nat)) :
    (X.map (fun p => (p.1, p.2.2))).map Prod.fst = X.map (fun p => p.1) := by
  rw [List.map_map]
  rfl

/-- A `put` of a fresh key into an enabled cache within capacity appends one
entry to both the store and the ledger. -/
theorem storeInSmartCache_fresh_no_evict
    {st : CacheState κ ν} {k : κ} (v : ν) (now : Nat)
    (hen : st.smartTileCacheEnabled = true)
    (hfreshS : k ∉ mapKeys st.smartTileCache)
    (hfreshL : k ∉ mapKeys st.cacheAccessOrder)
    (hlen : st.smartTileCache.length + 1 ≤ maxCacheSize) :
    (storeInSmartCache st k v now).smartTileCache = st.smartTileCache ++ [(k, v)] ∧
    (storeInSmartCache st k v now).cacheAccessOrder
      = st.cacheAccessOrder ++ [(k, now)] ∧
    (storeInSmartCache st k v now).smartTileCacheEnabled = true := by
  have hcond : (!st.smartTileCacheEnabled) = false := by rw [hen]; rfl
  rw [storeInSmartCache, hcond]
  simp only [Bool.false_eq_true, if_false]
  set st2 : CacheState κ ν :=
    updateCacheAccess { st with smartTileCache := mapSet st.smartTileCache k v } k now
    with hst2
  have hstore2 : st2.smartTileCache = st.smartTileCache ++ [(k, v)] := by
    rw [hst2]
    simp only [updateCacheAccess]
    exact mapSet_of_not_mem v hfreshS
  have hled2 : st2.cacheAccessOrder = st.cacheAccessOrder ++ [(k, now)] := by
    rw [hst2]
    simp only [updateCacheAccess]
    exact mapSet_of_not_mem now hfreshL
  have hev : evictLRUEntries st2 = st2 := by
    refine evict_of_le ?_
    rw [hstore2]
    simp only [List.length_append, List.length_cons, List.length_nil]
    omega
  rw [hev]
  by_cases hmod : (st2.cacheHits + st2.cacheMisses) % 50 = 0
  · rw [if_pos hmod]
    exact ⟨hstore2, hled2, hen⟩
  · rw [if_neg hmod]
    exact ⟨hstore2, hled2, hen⟩

/-- Running a block of fresh-key `put`s that never overflows the capacity
appends the corresponding entries to store and ledger in order. -/
theorem runPuts_append (l : List (κ × ν × Nat)) :
    ∀ (st : CacheState κ ν),
    st.smartTileCacheEnabled = true →
    mapKeys st.cacheAccessOrder = mapKeys st.smartTileCache →
    st.smartTileCache.length + l.length ≤ maxCacheSize →
    (l.map (fun p => p.1)).Nodup →
    (∀ p ∈ l, p.1 ∉ mapKeys st.smartTileCache) →
    (runOps st (l.map putOp)).smartTileCache
        = st.smartTileCache ++ l.map (fun p => (p.1, p.2.1)) ∧
    (runOps st (l.map putOp)).cacheAccessOrder
        = st.cacheAccessOrder ++ l.map (fun p => (p.1, p.2.2)) ∧
    (runOps st (l.map putOp)).smartTileCacheEnabled = true := by
  induction l with
  | nil =>
    intro st hen hkeys _ _ _
    exact ⟨by simp [runOps], by simp [runOps], hen⟩
  | cons p rest ih =>
    intro st hen hkeys hlen hnd hfresh
    have hfreshS : p.1 ∉ mapKeys st.smartTileCache :=
      hfresh p (List.mem_cons_self p rest)
    have hfreshL : p.1 ∉ mapKeys st.cacheAccessOrder := by
      rw [hkeys]
      exact hfreshS
    have hlen1 : st.smartTileCache.length + 1 ≤ maxCacheSize := by
      simp only [List.length_cons] at hlen
      omega
    have hstep := storeInSmartCache_fresh_no_evict p.2.1 p.2.2
      hen hfreshS hfreshL hlen1
    have hrun : runOps st ((p :: rest).map putOp)
        = runOps (storeInSmartCache st p.1 p.2.1 p.2.2) (rest.map putOp) := rfl
    rw [hrun]
    have hndrest : (rest.map (fun p => p.1)).Nodup := (List.nodup_cons.mp (by
      simpa using hnd)).2
    have hheadfresh : p.1 ∉ rest.map (fun p => p.1) := (List.nodup_cons.mp (by
      simpa using hnd)).1
    have ihres := ih (storeInSmartCache st p.1 p.2.1 p.2.2)
      hstep.2.2
      (by
        rw [hstep.1, hstep.2.1]
        simp only [mapKeys, List.map_append, List.map_cons, List.map_nil]
        rw [← mapKeys, ← mapKeys, hkeys])
      (by
        rw [hstep.1]
        simp only [List.length_append, List.length_cons, List.length_nil] at *
        omega)
      hndrest
      (by
        intro q hq
        rw [hstep.1]
        simp only [mapKeys, List.map_append, List.map_cons, List.map_nil,
          List.mem_append, List.mem_cons]
        push_neg
        refine ⟨?_, ?_, ?_⟩
        · have := hfresh q (List.mem_cons_of_mem p hq)
          simpa [mapKeys] using this
        · intro hqp
          exact hheadfresh (hqp ▸ List.mem_map_of_mem (fun p => p.1) hq)
        · intro hfalse
          cases hfalse)
    refine ⟨?_, ?_, ihres.2.2⟩
    · rw [ihres.1, hstep.1]
      simp [List.append_assoc]
    · rw [ihres.2.1, hstep.2.1]
      simp [List.append_assoc]

/-- Exact shape of an eviction fired by one overflowing insert: with 501
entries and a time-sorted ledger, exactly the 11 oldest entries are removed
from both maps. -/
theorem evict_overflow_eq (st : CacheState κ ν)
    (hlen : st.smartTileCache.length = maxCacheSize + 1)
    (hsorted : st.cacheAccessOrder.Pairwise (fun a b => a.2 ≤ b.2)) :
    evictLRUEntries st = { st with
      smartTileCache := ((st.cacheAccessOrder.take 11).map Prod.fst).foldl mapDelete
        st.smartTileCache,
      cacheAccessOrder := ((st.cacheAccessOrder.take 11).map Prod.fst).foldl mapDelete
        st.cacheAccessOrder } := by
  have hgt : ¬ st.smartTileCache.length ≤ maxCacheSize := by
    rw [hlen]
    omega
  have ht : st.smartTileCache.length - maxCacheSize + 10 = 11 := by
    rw [hlen]
    omega
  simp only [evictLRUEntries]
  rw [if_neg hgt, sortByAccessTime_eq_self hsorted, ht, foldl_pair_delete]
  simp only [foldl_mapDelete_map]

/-- Exact effect of the single overflowing `put` in the C4 scenario: with
the store holding exactly the 500 entries of `A` and a fresh key arriving,
the 11 oldest entries are evicted and the new entry appended. -/
theorem put_overflow_eq (S1 : CacheState κ ν) (A : List (κ × ν × Nat))
    (m : κ × ν × Nat)
    (hstore : S1.smartTileCache = A.map (fun p => (p.1, p.2.1)))
    (hled : S1.cacheAccessOrder = A.map (fun p => (p.1, p.2.2)))
    (hen : S1.smartTileCacheEnabled = true)
    (hAlen : A.length = maxCacheSize)
    (hnd : ((A ++ [m]).map (fun p => p.1)).Nodup)
    (hsorted : ((A ++ [m]).map (fun p => p.2.2)).Pairwise (· ≤ ·)) :
    (storeInSmartCache S1 m.1 m.2.1 m.2.2).smartTileCache
        = ((A.drop 11) ++ [m]).map (fun p => (p.1, p.2.1)) ∧
    (storeInSmartCache S1 m.1 m.2.1 m.2.2).cacheAccessOrder
        = ((A.drop 11) ++ [m]).map (fun p => (p.1, p.2.2)) ∧
    (storeInSmartCache S1 m.1 m.2.1 m.2.2).smartTileCacheEnabled = true := by
  have hcond : (!S1.smartTileCacheEnabled) = false := by rw [hen]; rfl
  have hmfresh : m.1 ∉ mapKeys S1.smartTileCache := by
    rw [hstore, mapKeys, map_fst_pairs]
    have hdisj := List.disjoint_of_nodup_append (by simpa using hnd)
    intro hmem
    exact hdisj hmem (by simp)
  have hmfreshL : m.1 ∉ mapKeys S1.cacheAccessOrder := by
    rw [hled, mapKeys, map_fst_ledg]
    rw [hstore, mapKeys, map_fst_pairs] at hmfresh
    exact hmfresh
  rw [storeInSmartCache, hcond]
  simp only [Bool.false_eq_true, if_false]
  set st2 : CacheState κ ν :=
    updateCacheAccess { S1 with smartTileCache := mapSet S1.smartTileCache m.1 m.2.1 }
      m.1 m.2.2 with hst2
  have hstore2 : st2.smartTileCache = (A ++ [m]).map (fun p => (p.1, p.2.1)) := by
    rw [hst2]
    simp only [updateCacheAccess]
    rw [mapSet_of_not_mem m.2.1 hmfresh, hstore]
    simp
  have hled2 : st2.cacheAccessOrder = (A ++ [m]).map (fun p => (p.1, p.2.2)) := by
    rw [hst2]
    simp only [updateCacheAccess]
    rw [mapSet_of_not_mem m.2.2 hmfreshL, hled]
    simp
  have hlen2 : st2.smartTileCache.length = maxCacheSize + 1 := by
    rw [hstore2]
    simp [hAlen]
  have hsorted2 : st2.cacheAccessOrder.Pairwise (fun a b => a.2 ≤ b.2) := by
    rw [hled2]
    rw [List.pairwise_map]
    exact (List.pairwise_map.mp hsorted)
  have hev := evict_overflow_eq st2 hlen2 hsorted2
  have htake : st2.cacheAccessOrder.take 11
      = (A.take 11).map (fun p => (p.1, p.2.2)) := by
    rw [hled2, List.map_append]
    rw [List.take_append_of_le_length (by simp [hAlen, maxCacheSize])]
    rw [List.map_take]
  have hkeys11 : (st2.cacheAccessOrder.take 11).map Prod.fst
      = (A.take 11).map (fun p => p.1) := by
    rw [htake, map_fst_ledg]
  have hsplitA : A = A.take 11 ++ A.drop 11 := (List.take_append_drop 11 A).symm
  have hnd' : ((A.take 11 ++ (A.drop 11 ++ [m])).map (fun p => p.1)).Nodup := by
    rw [← List.append_assoc, ← hsplitA]
    exact hnd
  have hstoreSplit : st2.smartTileCache
      = (A.take 11).map (fun p => (p.1, p.2.1))
        ++ (A.drop 11 ++ [m]).map (fun p => (p.1, p.2.1)) := by
    rw [hstore2]
    simp only [List.map_append, List.map_take, List.map_drop, List.map_cons,
      List.map_nil]
    rw [← List.append_assoc, List.take_append_drop]
  have hledSplit : st2.cacheAccessOrder
      = (A.take 11).map (fun p => (p.1, p.2.2))
        ++ (A.drop 11 ++ [m]).map (fun p => (p.1, p.2.2)) := by
    rw [hled2]
    simp only [List.map_append, List.map_take, List.map_drop, List.map_cons,
      List.map_nil]
    rw [← List.append_assoc, List.take_append_drop]
  have hfoldS : ((st2.cacheAccessOrder.take 11).map Prod.fst).foldl mapDelete
      st2.smartTileCache = (A.drop 11 ++ [m]).map (fun p => (p.1, p.2.1)) := by
    rw [hkeys11, hstoreSplit, ← map_fst_pairs (A.take 11)]
    refine foldl_mapDelete_prefix _ _ ?_
    rw [List.map_append, map_fst_pairs, map_fst_pairs, ← List.map_append]
    exact hnd'
  have hfoldL : ((st2.cacheAccessOrder.take 11).map Prod.fst).foldl mapDelete
      st2.cacheAccessOrder = (A.drop 11 ++ [m]).map (fun p => (p.1, p.2.2)) := by
    rw [hkeys11, hledSplit, ← map_fst_ledg (A.take 11)]
    refine foldl_mapDelete_prefix _ _ ?_
    rw [List.map_append, map_fst_ledg, map_fst_ledg, ← List.map_append]
    exact hnd'
  rw [hev]
  by_cases hmod : (({ st2 with
      smartTileCache := ((st2.cacheAccessOrder.take 11).map Prod.fst).foldl mapDelete
        st2.smartTileCache,
      cacheAccessOrder := ((st2.cacheAccessOrder.take 11).map Prod.fst).foldl mapDelete
        st2.cacheAccessOrder } : CacheState κ ν).cacheHits +
      ({ st2 with
      smartTileCache := ((st2.cacheAccessOrder.take 11).map Prod.fst).foldl mapDelete
        st2.smartTileCache,
      cacheAccessOrder := ((st2.cacheAccessOrder.take 11).map Prod.fst).foldl mapDelete
        st2.cacheAccessOrder } : CacheState κ ν).cacheMisses) % 50 = 0
  · rw [if_pos hmod]
    exact ⟨hfoldS, hfoldL, hen⟩
  · rw [if_neg hmod]
    exact ⟨hfoldS, hfoldL, hen⟩

theorem runOps_append (st : CacheState κ ν) (o1 o2 : List (CacheOp κ ν)) :
    runOps st (o1 ++ o2) = runOps (runOps st o1) o2 :=
  List.foldl_append applyOp st o1 o2

end PutSequences

/-! ## Lexicographic order lemmas for the template-summary sort -/

section StringOrder

theorem charListLt_irrefl (a : List Char) : charListLt a a = false := by
  induction a with
  | nil => rfl
  | cons x as ih => simp [charListLt, ih]

theorem charListLt_trans {a b c : List Char}
    (hab : charListLt a b = true) (hbc : charListLt b c = true) :
    charListLt a c = true := by
  induction a generalizing b c with
  | nil =>
    cases b with
    | nil => simp [charListLt] at hab
    | cons y bs =>
      cases c with
      | nil => simp [charListLt] at hbc
      | cons z cs => rfl
  | cons x as ih =>
    cases b with
    | nil => simp [charListLt] at hab
    | cons y bs =>
      cases c with
      | nil => simp [charListLt] at hbc
      | cons z cs =>
        simp only [charListLt] at hab hbc ⊢
        by_cases hxy : x < y
        · by_cases hyz : y < z
          · simp [lt_trans hxy hyz]
          · by_cases hzy : z < y
            · simp [hyz, hzy] at hbc
            · have hyzeq : y = z := le_antisymm (not_lt.mp hzy) (not_lt.mp hyz)
              simp [hyzeq ▸ hxy]
        · by_cases hyx : y < x
          · simp [hxy, hyx] at hab
          · have hxyeq : x = y := le_antisymm (not_lt.mp hyx) (not_lt.mp hxy)
            subst hxyeq
            simp only [hxy, if_false, lt_irrefl] at hab
            by_cases hyz : x < z
            · simp [hyz]
            · by_cases hzy : z < x
              · simp [hyz, hzy] at hbc
              · simp only [hyz, hzy, if_false] at hbc ⊢
                exact ih hab hbc

theorem charListLt_total (a b : List Char) :
    charListLt a b = true ∨ charListLt b a = true ∨ a = b := by
  induction a generalizing b with
  | nil =>
    cases b with
    | nil => exact Or.inr (Or.inr rfl)
    | cons y bs => exact Or.inl rfl
  | cons x as ih =>
    cases b with
    | nil => exact Or.inr (Or.inl rfl)
    | cons y bs =>
      rcases lt_trichotomy x y with hxy | hxy | hxy
      · exact Or.inl (by simp [charListLt, hxy])
      · subst hxy
        rcases ih bs with h | h | h
        · exact Or.inl (by simp [charListLt, h])
        · exact Or.inr (Or.inl (by simp [charListLt, h]))
        · exact Or.inr (Or.inr (by rw [h]))
      · exact Or.inr (Or.inl (by simp [charListLt, hxy]))

theorem charListLt_eq_of_both_false {a b : List Char}
    (hab : charListLt a b = false) (hba : charListLt b a = false) : a = b := by
  rcases charListLt_total a b with h | h | h
  · rw [h] at hab
    cases hab
  · rw [h] at hba
    cases hba
  · exact h

theorem jsStringLt_le_trans {a b c : String}
    (hba : jsStringLt b a = false) (hcb : jsStringLt c b = false) :
    jsStringLt c a = false := by
  by_contra hac
  rw [Bool.not_eq_false] at hac
  rcases charListLt_total a.data b.data with h | h | h
  · have := charListLt_trans hac h
    rw [jsStringLt] at hcb
    rw [hcb] at this
    cases this
  · rw [jsStringLt] at hba
    rw [hba] at h
    cases h
  · rw [jsStringLt] at hac hcb
    rw [h] at hac
    rw [hac] at hcb
    cases hcb

theorem jsStringLt_eq_of_both_false {a b : String}
    (hab : jsStringLt a b = false) (hba : jsStringLt b a = false) : a = b := by
  have := charListLt_eq_of_both_false (hab : charListLt a.data b.data = false) hba
  cases a
  cases b
  exact congrArg String.mk this

theorem insertSorted_perm (s : String) (l : List String) :
    List.Perm (insertSorted s l) (s :: l) := by
  induction l with
  | nil => simp [insertSorted]
  | cons x rest ih =>
    by_cases h : jsStringLt x s = true
    · simp only [insertSorted, if_pos h]
      exact (ih.cons x).trans (List.Perm.swap s x rest)
    · simp [insertSorted, h]

theorem sortStrings_perm (l : List String) : List.Perm (sortStrings l) l := by
  induction l with
  | nil => simp [sortStrings]
  | cons s rest ih =>
    have hstep : sortStrings (s :: rest) = insertSorted s (sortStrings rest) := rfl
    rw [hstep]
    exact (insertSorted_perm s (sortStrings rest)).trans (ih.cons s)

theorem insertSorted_sorted (s : String) {l : List String}
    (h : l.Pairwise strLeB) : (insertSorted s l).Pairwise strLeB := by
  induction l with
  | nil => simp [insertSorted, List.pairwise_cons]
  | cons x rest ih =>
    rcases List.pairwise_cons.mp h with ⟨hx, hrest⟩
    by_cases hcmp : jsStringLt x s = true
    · simp only [insertSorted, if_pos hcmp]
      rw [List.pairwise_cons]
      refine ⟨?_, ih hrest⟩
      intro y hy
      have hy2 : y ∈ s :: rest := (insertSorted_perm s rest).mem_iff.mp hy
      rcases List.mem_cons.mp hy2 with h1 | h1
      · subst h1
        show jsStringLt y x = false
        by_contra hlt
        rw [Bool.not_eq_false] at hlt
        have htr := charListLt_trans (hlt : charListLt y.data x.data = true)
          (hcmp : charListLt x.data y.data = true)
        rw [charListLt_irrefl] at htr
        cases htr
      · exact hx y h1
    · simp only [insertSorted, if_neg hcmp]
      have hsx : strLeB s x := by
        show jsStringLt x s = false
        cases hb : jsStringLt x s with
        | false => rfl
        | true => exact absurd hb hcmp
      rw [List.pairwise_cons]
      refine ⟨?_, h⟩
      intro y hy
      rcases List.mem_cons.mp hy with h1 | h1
      · rw [h1]
        exact hsx
      · exact jsStringLt_le_trans hsx (hx y h1)

theorem sortStrings_sorted (l : List String) : (sortStrings l).Pairwise strLeB := by
  induction l with
  | nil => simp [sortStrings]
  | cons s rest ih => exact insertSorted_sorted s ih

theorem sortStrings_eq_of_perm {l1 l2 : List String} (h : List.Perm l1 l2) :
    sortStrings l1 = sortStrings l2 := by
  refine @List.eq_of_perm_of_sorted String strLeB
    ⟨fun a b h1 h2 => jsStringLt_eq_of_both_false h2 h1⟩ _ _
    (((sortStrings_perm l1).trans h).trans (sortStrings_perm l2).symm)
    (sortStrings_sorted l1) (sortStrings_sorted l2)

end StringOrder

/-! ## Injectivity of the joined template summary -/

section JoinInjectivity

theorem string_ext {s t : String} (h : s.data = t.data) : s = t := by
  cases s
  cases t
  exact congrArg String.mk h

/-- Splitting a character list at its first separator is unambiguous. -/
theorem splitAtSep : ∀ (a c b d : List Char), ('|' : Char) ∉ a → ('|' : Char) ∉ c →
    a ++ '|' :: b = c ++ '|' :: d → a = c ∧ b = d := by
  intro a
  induction a with
  | nil =>
    intro c b d _ hc heq
    cases c with
    | nil =>
      simp only [List.nil_append, List.cons.injEq] at heq
      exact ⟨rfl, heq.2⟩
    | cons e cs =>
      simp only [List.nil_append, List.cons_append, List.cons.injEq] at heq
      exact absurd (heq.1 ▸ List.mem_cons_self e cs) hc
  | cons x as ih =>
    intro c b d ha hc heq
    cases c with
    | nil =>
      simp only [List.cons_append, List.nil_append, List.cons.injEq] at heq
      exact absurd (heq.1 ▸ List.mem_cons_self x as) ha
    | cons y cs =>
      simp only [List.cons_append, List.cons.injEq] at heq
      have hxy : x = y := heq.1
      have has : ('|' : Char) ∉ as := fun hm => ha (List.mem_cons_of_mem x hm)
      have hcs : ('|' : Char) ∉ cs := fun hm => hc (List.mem_cons_of_mem y hm)
      obtain ⟨h1, h2⟩ := ih cs b d has hcs heq.2
      exact ⟨by rw [hxy, h1], h2⟩

theorem data_joinBar_cons_cons (s t : String) (r : List String) :
    (joinBar (s :: t :: r)).data = s.data ++ '|' :: (joinBar (t :: r)).data := by
  show (s ++ "|" ++ joinBar (t :: r)).data = _
  rw [String.data_append, String.data_append,
    show ("|" : String).data = ['|'] from rfl, List.append_assoc,
    List.singleton_append]

theorem joinBar_data_ne_nil (y : String) (ys : List String)
    (h : ∀ s ∈ y :: ys, s.data ≠ [] ∧ ('|' : Char) ∉ s.data) :
    (joinBar (y :: ys)).data ≠ [] := by
  cases ys with
  | nil => exact (h y (List.mem_cons_self y [])).1
  | cons z r =>
    rw [data_joinBar_cons_cons]
    intro hnil
    rcases List.append_eq_nil.mp hnil with ⟨_, h2⟩
    cases h2

/-- Join with `'|'` is injective on lists of nonempty separator-free strings. -/
theorem joinBar_inj : ∀ (l1 l2 : List String),
    (∀ s ∈ l1, s.data ≠ [] ∧ ('|' : Char) ∉ s.data) →
    (∀ s ∈ l2, s.data ≠ [] ∧ ('|' : Char) ∉ s.data) →
    joinBar l1 = joinBar l2 → l1 = l2 := by
  intro l1
  induction l1 with
  | nil =>
    intro l2 _ h2 heq
    cases l2 with
    | nil => rfl
    | cons y ys =>
      exact absurd (congrArg String.data heq).symm (joinBar_data_ne_nil y ys h2)
  | cons x xs ih =>
    intro l2 h1 h2 heq
    cases l2 with
    | nil =>
      exact absurd (congrArg String.data heq) (joinBar_data_ne_nil x xs h1)
    | cons y ys =>
      cases xs with
      | nil =>
        cases ys with
        | nil =>
          rw [show joinBar [x] = x from rfl, show joinBar [y] = y from rfl] at heq
          rw [heq]
        | cons z r =>
          exfalso
          have hd := congrArg String.data heq
          rw [show joinBar [x] = x from rfl, data_joinBar_cons_cons] at hd
          refine (h1 x (List.mem_cons_self x [])).2 ?_
          rw [hd]
          exact List.mem_append_right _ (List.mem_cons_self _ _)
      | cons x2 r1 =>
        cases ys with
        | nil =>
          exfalso
          have hd := congrArg String.data heq
          rw [show joinBar [y] = y from rfl, data_joinBar_cons_cons] at hd
          refine (h2 y (List.mem_cons_self y [])).2 ?_
          rw [← hd]
          exact List.mem_append_right _ (List.mem_cons_self _ _)
        | cons y2 r2 =>
          have hd := congrArg String.data heq
          rw [data_joinBar_cons_cons, data_joinBar_cons_cons] at hd
          obtain ⟨hxy, htails⟩ := splitAtSep x.data y.data _ _
            (h1 x (List.mem_cons_self x _)).2 (h2 y (List.mem_cons_self y _)).2 hd
          have hx : x = y := string_ext hxy
          have htl : joinBar (x2 :: r1) = joinBar (y2 :: r2) := string_ext htails
          have hrest := ih (y2 :: r2)
            (fun s hs => h1 s (List.mem_cons_of_mem x hs))
            (fun s hs => h2 s (List.mem_cons_of_mem y hs)) htl
          rw [hx, hrest]

end JoinInjectivity

/-! ## Masked template selections -/

section MaskSelection

theorem templateIsActive_applyFlag (t : Template) (b : Bool) :
    templateIsActive { t with enabled := some b } = b := by
  cases b <;> rfl

theorem templateSummary_applyFlag (t : Template) (b : Bool) :
    templateSummary { t with enabled := some b } = templateSummary t := rfl

theorem applyMask_filter_map : ∀ (base : List Template) (e : List Bool),
    ((applyMask base e).filter templateIsActive).map templateSummary
      = selectMask (base.map templateSummary) e := by
  intro base
  induction base with
  | nil => intro e; cases e <;> rfl
  | cons t rest ih =>
    intro e
    cases e with
    | nil => rfl
    | cons b bs =>
      show ((({ t with enabled := some b } : Template) :: applyMask rest bs).filter
        templateIsActive).map templateSummary = _
      rw [List.filter_cons]
      cases hb : b with
      | true =>
        rw [templateIsActive_applyFlag t true]
        simp only [if_true]
        show templateSummary { t with enabled := some true }
            :: ((applyMask rest bs).filter templateIsActive).map templateSummary = _
        rw [templateSummary_applyFlag, ih]
        rfl
      | false =>
        rw [templateIsActive_applyFlag t false]
        simp only [Bool.false_eq_true, if_false]
        rw [ih]
        rfl

theorem applyMask_length : ∀ (base : List Template) (e : List Bool),
    (applyMask base e).length = min base.length e.length := by
  intro base
  induction base with
  | nil => intro e; cases e <;> simp [applyMask]
  | cons t rest ih =>
    intro e
    cases e with
    | nil => simp [applyMask]
    | cons b bs =>
      show (applyMask rest bs).length + 1 = _
      rw [ih]
      simp only [List.length_cons]
      omega

theorem selectMask_subset {α : Type} : ∀ (ss : List α) (e : List Bool) (x : α),
    x ∈ selectMask ss e → x ∈ ss := by
  intro ss
  induction ss with
  | nil => intro e x hx; cases e <;> cases hx
  | cons s rest ih =>
    intro e x hx
    cases e with
    | nil => cases hx
    | cons b bs =>
      cases b with
      | true =>
        rcases List.mem_cons.mp hx with h | h
        · exact h ▸ List.mem_cons_self s rest
        · exact List.mem_cons_of_mem s (ih bs x h)
      | false => exact List.mem_cons_of_mem s (ih bs x hx)

theorem selectMask_ne {α : Type} : ∀ (ss : List α) (e1 e2 : List Bool),
    e1.length = ss.length → e2.length = ss.length → ss.Nodup → e1 ≠ e2 →
    ∃ x, (x ∈ selectMask ss e1 ∧ x ∉ selectMask ss e2) ∨
         (x ∈ selectMask ss e2 ∧ x ∉ selectMask ss e1) := by
  intro ss
  induction ss with
  | nil =>
    intro e1 e2 h1 h2 _ hne
    simp only [List.length_nil] at h1 h2
    rw [List.length_eq_zero] at h1 h2
    exact absurd (h1.trans h2.symm) hne
  | cons s rest ih =>
    intro e1 e2 h1 h2 hnd hne
    rcases List.nodup_cons.mp hnd with ⟨hs, hndrest⟩
    cases e1 with
    | nil => simp at h1
    | cons b1 bs1 =>
      cases e2 with
      | nil => simp at h2
      | cons b2 bs2 =>
        simp only [List.length_cons] at h1 h2
        by_cases hb : b1 = b2
        · have hbs : bs1 ≠ bs2 := by
            intro hEq
            exact hne (by rw [hb, hEq])
          obtain ⟨x, hx⟩ := ih bs1 bs2 (by omega) (by omega) hndrest hbs
          have hxnes : ∀ {m : List Bool}, x ∈ selectMask rest m → x ≠ s := by
            intro m hm hxs
            exact hs (hxs ▸ selectMask_subset rest m x hm)
          refine ⟨x, ?_⟩
          subst hb
          cases b1 with
          | true =>
            rcases hx with ⟨hin, hout⟩ | ⟨hin, hout⟩
            · refine Or.inl ⟨List.mem_cons_of_mem s hin, ?_⟩
              intro hmem
              rcases List.mem_cons.mp hmem with h | h
              · exact hxnes hin h
              · exact hout h
            · refine Or.inr ⟨List.mem_cons_of_mem s hin, ?_⟩
              intro hmem
              rcases List.mem_cons.mp hmem with h | h
              · exact hxnes hin h
              · exact hout h
          | false =>
            exact hx
        · have hsout : ∀ (m : List Bool), s ∉ selectMask rest m := by
            intro m hmem
            exact hs (selectMask_subset rest m s hmem)
          cases b1 with
          | true =>
            cases b2 with
            | true => exact absurd rfl hb
            | false => exact ⟨s, Or.inl ⟨List.mem_cons_self s _, hsout bs2⟩⟩
          | false =>
            cases b2 with
            | true => exact ⟨s, Or.inr ⟨List.mem_cons_self s _, hsout bs1⟩⟩
            | false => exact absurd rfl hb

theorem underscore_mem_summary (t : Template) :
    ('_' : Char) ∈ (templateSummary t).data := by
  show ('_' : Char) ∈ ((match t.name with
    | some s => if s = "" then "unnamed" else s
    | none => "unnamed") ++ "_" ++ toString (t.sortID.getD 0)).data
  rw [String.data_append, String.data_append]
  refine List.mem_append_left _ (List.mem_append_right _ ?_)
  show ('_' : Char) ∈ ['_']
  exact List.mem_singleton.mpr rfl

theorem summary_data_ne_nil (t : Template) : (templateSummary t).data ≠ [] :=
  List.ne_nil_of_mem (underscore_mem_summary t)

end MaskSelection

/-! ## Key determinism and distinctness -/

section KeyDeterminism

theorem key_parts_inj {ck c h1 h2 : String}
    (heq : ck ++ "_" ++ h1 ++ "_" ++ c = ck ++ "_" ++ h2 ++ "_" ++ c) :
    h1 = h2 := by
  have hd := congrArg String.data heq
  simp only [String.data_append, List.append_assoc] at hd
  have h3 := List.append_cancel_left hd
  have h4 := List.append_cancel_left h3
  exact string_ext (List.append_cancel_right h4)

/-- Key generation is invariant under permutation of the template array. -/
theorem generateCacheKey_perm (coords : TileCoords) (blob : Option Blob)
    {l l' : List Template} (h : List.Perm l l') :
    generateCacheKey coords l blob = generateCacheKey coords l' blob := by
  have hlen := h.length_eq
  unfold generateCacheKey templateHashOf
  by_cases h0 : 0 < l.length
  · have h0' : 0 < l'.length := hlen ▸ h0
    have hperm : List.Perm ((l.filter templateIsActive).map templateSummary)
        ((l'.filter templateIsActive).map templateSummary) :=
      (h.filter templateIsActive).map templateSummary
    rw [if_pos h0, if_pos h0', sortStrings_eq_of_perm hperm]
  · have h0' : ¬ 0 < l'.length := hlen ▸ h0
    rw [if_neg h0, if_neg h0']

/-- With pairwise-distinct, separator-free template summaries, two requests
identical except in which templates are enabled produce different keys. -/
theorem generateCacheKey_mask_ne (coords : TileCoords) (blob : Option Blob)
    (base : List Template) (e1 e2 : List Bool)
    (hlen1 : e1.length = base.length) (hlen2 : e2.length = base.length)
    (hnd : (base.map templateSummary).Nodup)
    (hfree : ∀ t ∈ base, ('|' : Char) ∉ (templateSummary t).data)
    (hne : e1 ≠ e2) :
    generateCacheKey coords (applyMask base e1) blob
      ≠ generateCacheKey coords (applyMask base e2) blob := by
  have hbase : base ≠ [] := by
    intro h0
    subst h0
    simp only [List.length_nil] at hlen1 hlen2
    rw [List.length_eq_zero] at hlen1 hlen2
    exact hne (hlen1.trans hlen2.symm)
  -- the two selections differ in membership, hence are not permutations
  obtain ⟨x, hx⟩ := selectMask_ne (base.map templateSummary) e1 e2
    (by rw [hlen1, List.length_map]) (by rw [hlen2, List.length_map]) hnd hne
  have hnp : ¬ List.Perm (selectMask (base.map templateSummary) e1)
      (selectMask (base.map templateSummary) e2) := by
    intro hp
    rcases hx with ⟨hin, hout⟩ | ⟨hin, hout⟩
    · exact hout (hp.mem_iff.mp hin)
    · exact hout (hp.mem_iff.mpr hin)
  -- hence the sorted summary lists differ
  have hsne : sortStrings (selectMask (base.map templateSummary) e1)
      ≠ sortStrings (selectMask (base.map templateSummary) e2) := by
    intro hEq
    exact hnp (((sortStrings_perm _).symm.trans (hEq ▸ sortStrings_perm _)))
  -- properties of the sorted elements
  have hprops : ∀ (e : List Bool) (s : String),
      s ∈ sortStrings (selectMask (base.map templateSummary) e) →
      s.data ≠ [] ∧ ('|' : Char) ∉ s.data := by
    intro e s hs
    have hs2 : s ∈ selectMask (base.map templateSummary) e :=
      (sortStrings_perm _).mem_iff.mp hs
    have hs3 : s ∈ base.map templateSummary := selectMask_subset _ e s hs2
    obtain ⟨t, ht, hts⟩ := List.mem_map.mp hs3
    exact ⟨hts ▸ summary_data_ne_nil t, hts ▸ hfree t ht⟩
  -- hence the joined hashes differ
  have hjne : joinBar (sortStrings (selectMask (base.map templateSummary) e1))
      ≠ joinBar (sortStrings (selectMask (base.map templateSummary) e2)) := by
    intro hEq
    exact hsne (joinBar_inj _ _ (hprops e1) (hprops e2) hEq)
  -- the hashes in the keys are exactly these joins
  have hhash : ∀ (e : List Bool), e.length = base.length →
      templateHashOf (applyMask base e)
        = joinBar (sortStrings (selectMask (base.map templateSummary) e)) := by
    intro e hlen
    have hpos : 0 < (applyMask base e).length := by
      rw [applyMask_length, hlen, Nat.min_self]
      cases base with
      | nil => exact absurd rfl hbase
      | cons t rest => simp
    rw [templateHashOf, if_pos hpos, applyMask_filter_map]
  intro hEq
  exact hjne (by
    have := key_parts_inj (hEq :
      coordsKeyOf coords ++ "_" ++ templateHashOf (applyMask base e1) ++ "_"
          ++ contentHashOf blob
        = coordsKeyOf coords ++ "_" ++ templateHashOf (applyMask base e2) ++ "_"
          ++ contentHashOf blob)
    rw [hhash e1 hlen1, hhash e2 hlen2] at this
    exact this)

end KeyDeterminism

/-! ## Claim theorems -/

/-- Claim C1. While the pause state is `Paused`, every compositing request for
a tile whose normalized coordinate key is present in the frozen snapshot
store returns the stored frozen composite, every request for an absent tile
returns the unmodified input tile payload unchanged, the state is untouched,
and in neither case is the external compositing operation invoked. -/
theorem paused_strategy_C1 (st : TileState)
    (compositor : Blob → TileCoords → Except String Blob)
    (templatesArray : List Template) (tileBlob : Blob) (tileCoords : TileCoords)
    (now : Nat) (hp : st.tileRefreshPaused = true) :
    (drawTemplateOnTile st compositor templatesArray tileBlob tileCoords now).2.2 = 0 ∧
    (drawTemplateOnTile st compositor templatesArray tileBlob tileCoords now).2.1 = st ∧
    (∀ v, mapGet st.frozenTileCache (coordsKeyOf tileCoords) = some v →
      (drawTemplateOnTile st compositor templatesArray tileBlob tileCoords now).1
        = Except.ok v) ∧
    (mapGet st.frozenTileCache (coordsKeyOf tileCoords) = none →
      (drawTemplateOnTile st compositor templatesArray tileBlob tileCoords now).1
        = Except.ok tileBlob) := by
  simp only [drawTemplateOnTile, hp, if_true]
  cases hget : mapGet st.frozenTileCache (coordsKeyOf tileCoords) <;> simp [hget]

/-- Witness for C1 at a concrete paused state holding one frozen tile. -/
theorem paused_strategy_C1_witness :
    (drawTemplateOnTile
        ⟨true, false, [("0003,0004", ⟨5, "x"⟩)], initialCacheState String Blob⟩
        (fun b _ => Except.ok b) [] ⟨9, "y"⟩ (TileCoords.arr 3 4) 0).2.2 = 0 ∧
    (drawTemplateOnTile
        ⟨true, false, [("0003,0004", ⟨5, "x"⟩)], initialCacheState String Blob⟩
        (fun b _ => Except.ok b) [] ⟨9, "y"⟩ (TileCoords.arr 3 4) 0).2.1
      = ⟨true, false, [("0003,0004", ⟨5, "x"⟩)], initialCacheState String Blob⟩ ∧
    (drawTemplateOnTile
        ⟨true, false, [("0003,0004", ⟨5, "x"⟩)], initialCacheState String Blob⟩
        (fun b _ => Except.ok b) [] ⟨9, "y"⟩ (TileCoords.arr 3 4) 0).1
      = Except.ok ⟨5, "x"⟩ := by
  have h := paused_strategy_C1
    ⟨true, false, [("0003,0004", ⟨5, "x"⟩)], initialCacheState String Blob⟩
    (fun b _ => Except.ok b) [] ⟨9, "y"⟩ (TileCoords.arr 3 4) 0 rfl
  exact ⟨h.1, h.2.1, h.2.2.1 ⟨5, "x"⟩ (by decide)⟩

/-- Claim C3. For every sequence of `put` operations on the LRU store starting
from the initial (cache-enabled, empty) state, the store's size never
exceeds `maxCacheSize` (500) after any `put` has returned control to the
caller (every such sequence, so in particular every prefix). -/
theorem lru_capacity_C3 {κ ν : Type} [DecidableEq κ] (puts : List (κ × ν × Nat)) :
    (runOps (initialCacheState κ ν) (puts.map putOp)).smartTileCache.length
      ≤ maxCacheSize :=
  (runOps_inv _ initialCacheState_inv).2.2

/-- Claim C2, counterexample. Two calls identical except in which templates
are enabled can yield the SAME key: with template names embedding the
summary separators (`"A"`, `"A_0|A"`, `"A_0|A_0|A"`), enabling only the
third produces the same sorted-joined summary — hence the same key — as
enabling the first two, although the enabled subsets (and the filtered
active template lists) differ. -/
theorem key_determinism_C2_counterexample :
    generateCacheKey (TileCoords.arr 12 7)
        (applyMask [⟨some "A", none, none⟩, ⟨some "A_0|A", none, none⟩,
          ⟨some "A_0|A_0|A", none, none⟩] [false, false, true])
        (some ⟨100, "image/png"⟩)
      = generateCacheKey (TileCoords.arr 12 7)
        (applyMask [⟨some "A", none, none⟩, ⟨some "A_0|A", none, none⟩,
          ⟨some "A_0|A_0|A", none, none⟩] [true, true, false])
        (some ⟨100, "image/png"⟩) ∧
    [false, false, true] ≠ [true, true, false] ∧
    (applyMask [⟨some "A", none, none⟩, ⟨some "A_0|A", none, none⟩,
        ⟨some "A_0|A_0|A", none, none⟩] [false, false, true]).filter templateIsActive
      ≠ (applyMask [⟨some "A", none, none⟩, ⟨some "A_0|A", none, none⟩,
        ⟨some "A_0|A_0|A", none, none⟩] [true, true, false]).filter templateIsActive := by
  refine ⟨by decide, by decide, by decide⟩

/-- Claim C2, amended. `generateCacheKey` is a pure function and identical
inputs — including the same templates given in a different order — yield an
identical key; and, provided the templates' summary strings
(`name_sortID`) are pairwise distinct and free of the join separator `'|'`
(in particular whenever names avoid `'|'` and the `(name, sortID)` pairs
are distinct), two calls identical except in which templates of the list
are enabled yield a different key.  Without that proviso the distinctness
half fails (see the counterexample). -/
theorem key_determinism_C2_amended :
    (∀ (coords : TileCoords) (blob : Option Blob) (l l' : List Template),
      List.Perm l l' →
      generateCacheKey coords l blob = generateCacheKey coords l' blob) ∧
    (∀ (coords : TileCoords) (blob : Option Blob) (base : List Template)
      (e1 e2 : List Bool),
      e1.length = base.length → e2.length = base.length →
      (base.map templateSummary).Nodup →
      (∀ t ∈ base, ('|' : Char) ∉ (templateSummary t).data) →
      e1 ≠ e2 →
      generateCacheKey coords (applyMask base e1) blob
        ≠ generateCacheKey coords (applyMask base e2) blob) :=
  ⟨fun coords blob _ _ h => generateCacheKey_perm coords blob h,
   fun coords blob base e1 e2 h1 h2 h3 h4 h5 =>
     generateCacheKey_mask_ne coords blob base e1 e2 h1 h2 h3 h4 h5⟩

/-- Witness for C2 (amended): a concrete permutation yields the same key;
concrete well-behaved templates with different enabled masks yield
different keys. -/
theorem key_determinism_C2_amended_witness :
    generateCacheKey (TileCoords.arr 12 7)
        [⟨some "A", some 1, some true⟩, ⟨some "B", some 2, some true⟩]
        (some ⟨100, "image/png"⟩)
      = generateCacheKey (TileCoords.arr 12 7)
        [⟨some "B", some 2, some true⟩, ⟨some "A", some 1, some true⟩]
        (some ⟨100, "image/png"⟩) ∧
    generateCacheKey (TileCoords.arr 12 7)
        (applyMask [⟨some "A", some 1, none⟩, ⟨some "B", some 2, none⟩]
          [true, false])
        (some ⟨100, "image/png"⟩)
      ≠ generateCacheKey (TileCoords.arr 12 7)
        (applyMask [⟨some "A", some 1, none⟩, ⟨some "B", some 2, none⟩]
          [false, true])
        (some ⟨100, "image/png"⟩) := by
  have h := key_determinism_C2_amended
  refine ⟨h.1 (TileCoords.arr 12 7) (some ⟨100, "image/png"⟩) _ _ ?_,
    h.2 (TileCoords.arr 12 7) (some ⟨100, "image/png"⟩)
      [⟨some "A", some 1, none⟩, ⟨some "B", some 2, none⟩]
      [true, false] [false, true] (by decide) (by decide) (by decide)
      (by decide) (by decide)⟩
  exact List.Perm.swap _ _ _

/-- Claim C4. Starting from the empty, cache-enabled initial state, inserting
`maxCacheSize + 11` (511) distinct keys (with nondecreasing clock readings,
as `Date.now()` produces) leaves the store holding exactly `maxCacheSize`
(500) entries, and the entries absent are precisely the 11
least-recently-accessed ones: the single eviction removes
`size - maxCacheSize + 10` oldest-by-access-time entries, ties broken by
insertion order under a stable sort. -/
theorem lru_eviction_scenario_C4 {κ ν : Type} [DecidableEq κ]
    (l : List (κ × ν × Nat))
    (hlen : l.length = maxCacheSize + 11)
    (hnd : (l.map (fun p => p.1)).Nodup)
    (hsorted : (l.map (fun p => p.2.2)).Pairwise (· ≤ ·)) :
    (runOps (initialCacheState κ ν) (l.map putOp)).smartTileCache
        = (l.drop 11).map (fun p => (p.1, p.2.1)) ∧
    (runOps (initialCacheState κ ν) (l.map putOp)).smartTileCache.length
        = maxCacheSize := by
  set A := l.take maxCacheSize with hA
  set rest := l.drop maxCacheSize with hrest
  have hsplit : l = A ++ rest := (List.take_append_drop maxCacheSize l).symm
  have hAlen : A.length = maxCacheSize := by
    rw [hA, List.length_take, hlen]
    exact Nat.min_eq_left (Nat.le_add_right _ _)
  have hrestlen : rest.length = 11 := by
    rw [hrest, List.length_drop, hlen]
    omega
  obtain ⟨m, B, hrm⟩ : ∃ m B, rest = m :: B := by
    cases hc : rest with
    | nil =>
      rw [hc] at hrestlen
      simp at hrestlen
    | cons m B => exact ⟨m, B, rfl⟩
  have hBlen : B.length = 10 := by
    rw [hrm] at hrestlen
    simp only [List.length_cons] at hrestlen
    omega
  have hsubA : A.Sublist l := by
    rw [hA]
    exact List.take_sublist maxCacheSize l
  have hsubAm : (A ++ [m]).Sublist l := by
    rw [hsplit, hrm]
    have hsh : A ++ m :: B = (A ++ [m]) ++ B := by simp
    rw [hsh]
    exact (A ++ [m]).sublist_append_left B
  have hsubB : B.Sublist l := by
    rw [hsplit, hrm]
    exact (List.sublist_cons_self m B).trans (List.sublist_append_right A (m :: B))
  -- phase 1: the first 500 puts fill the empty store without eviction
  have hphase1 := runPuts_append A (initialCacheState κ ν) rfl rfl
    (by rw [hAlen]; simp [initialCacheState])
    ((hsubA.map (fun p => p.1)).nodup hnd)
    (by intro p _; simp [initialCacheState, mapKeys])
  set S1 := runOps (initialCacheState κ ν) (A.map putOp) with hS1
  have hS1store : S1.smartTileCache = A.map (fun p => (p.1, p.2.1)) := by
    rw [hS1, hphase1.1]
    simp [initialCacheState]
  have hS1led : S1.cacheAccessOrder = A.map (fun p => (p.1, p.2.2)) := by
    rw [hS1, hphase1.2.1]
    simp [initialCacheState]
  -- phase 2: the 501st put overflows and evicts the 11 oldest entries
  have hover := put_overflow_eq S1 A m hS1store hS1led hphase1.2.2 hAlen
    ((hsubAm.map (fun p => p.1)).nodup hnd)
    (hsorted.sublist (hsubAm.map (fun p => p.2.2)))
  set S2 := storeInSmartCache S1 m.1 m.2.1 m.2.2 with hS2
  -- phase 3: the last 10 puts append without eviction
  have hdisj : ∀ x, x ∈ (A ++ [m]).map (fun p => p.1) →
      x ∉ B.map (fun p => p.1) := by
    have hmapsplit : l.map (fun p => p.1)
        = (A ++ [m]).map (fun p => p.1) ++ B.map (fun p => p.1) := by
      rw [hsplit, hrm, List.append_cons, List.map_append]
    intro x hx
    exact List.disjoint_of_nodup_append (hmapsplit ▸ hnd) hx
  have hphase3 := runPuts_append B S2
    hover.2.2
    (by
      rw [hover.1, hover.2.1, mapKeys, mapKeys, map_fst_pairs, map_fst_ledg])
    (by
      rw [hover.1]
      simp only [List.length_map, List.length_append, List.length_drop,
        List.length_cons, List.length_nil]
      rw [hAlen, hBlen]
      unfold maxCacheSize
      omega)
    ((hsubB.map (fun p => p.1)).nodup hnd)
    (by
      intro q hq
      rw [hover.1, mapKeys, map_fst_pairs]
      intro hmem
      refine hdisj q.1 ?_ (List.mem_map_of_mem (fun p => p.1) hq)
      have hsubdrop : (A.drop 11 ++ [m]).Sublist (A ++ [m]) :=
        (List.drop_sublist 11 A).append (List.Sublist.refl [m])
      exact (hsubdrop.map (fun p => p.1)).mem hmem)
  have hruneq : runOps (initialCacheState κ ν) (l.map putOp)
      = runOps S2 (B.map putOp) := by
    rw [hsplit, hrm, List.map_append, runOps_append, List.map_cons]
    rfl
  have hdrop : l.drop 11 = A.drop 11 ++ m :: B := by
    rw [hsplit, hrm, List.drop_append_eq_append_drop]
    have : 11 - A.length = 0 := by
      rw [hAlen]
      unfold maxCacheSize
      omega
    rw [this, List.drop_zero]
  have hfinal : (runOps (initialCacheState κ ν) (l.map putOp)).smartTileCache
      = (l.drop 11).map (fun p => (p.1, p.2.1)) := by
    rw [hruneq, hphase3.1, hover.1, hdrop]
    rw [← List.map_append, List.append_assoc]
    rfl
  refine ⟨hfinal, ?_⟩
  rw [hfinal, List.length_map, hdrop]
  simp only [List.length_append, List.length_drop, List.length_cons]
  rw [hAlen, hBlen]
  unfold maxCacheSize
  omega

/-- Witness for C4: inserting the 511 keys `0, …, 510` at times `0, …, 510`
leaves exactly the pairs for keys `11, …, 510`. -/
theorem lru_eviction_scenario_C4_witness :
    (runOps (initialCacheState Nat Nat)
        (((List.range 511).map (fun i => (i, i, i))).map putOp)).smartTileCache
      = (((List.range 511).map (fun i => (i, i, i))).drop 11).map
          (fun p => (p.1, p.2.1)) ∧
    (runOps (initialCacheState Nat Nat)
        (((List.range 511).map (fun i => (i, i, i))).map putOp)).smartTileCache.length
      = maxCacheSize := by
  have hfst : ((List.range 511).map (fun i => (i, i, i))).map
      (fun p : Nat × Nat × Nat => p.1) = List.range 511 := by
    rw [List.map_map]
    exact List.map_id (List.range 511)
  have htime : ((List.range 511).map (fun i => (i, i, i))).map
      (fun p : Nat × Nat × Nat => p.2.2) = List.range 511 := by
    rw [List.map_map]
    exact List.map_id (List.range 511)
  exact lru_eviction_scenario_C4 ((List.range 511).map (fun i => (i, i, i)))
    (by simp [maxCacheSize])
    (by rw [hfst]; exact List.nodup_range 511)
    (by rw [htime]; exact List.sorted_le_range 511)

/-- Claim C5. The key built for tile coordinates `(12, 7)` with template list
`[{name: "A", sortID: 1, enabled: true}]` and payload
`{size: 100, type: "image/png"}` is exactly
`"0012,0007_A_1_100_image/png"`; with `enabled: false` on template A it is
exactly `"0012,0007__100_image/png"`; these two keys differ from each other
and from the key built with the same coordinate and templates but payload
size 200. -/
theorem key_scenario_C5 :
    generateCacheKey (TileCoords.arr 12 7) [⟨some "A", some 1, some true⟩]
        (some ⟨100, "image/png"⟩) = "0012,0007_A_1_100_image/png" ∧
    generateCacheKey (TileCoords.arr 12 7) [⟨some "A", some 1, some false⟩]
        (some ⟨100, "image/png"⟩) = "0012,0007__100_image/png" ∧
    generateCacheKey (TileCoords.arr 12 7) [⟨some "A", some 1, some true⟩]
        (some ⟨100, "image/png"⟩)
      ≠ generateCacheKey (TileCoords.arr 12 7) [⟨some "A", some 1, some false⟩]
        (some ⟨100, "image/png"⟩) ∧
    generateCacheKey (TileCoords.arr 12 7) [⟨some "A", some 1, some true⟩]
        (some ⟨100, "image/png"⟩)
      ≠ generateCacheKey (TileCoords.arr 12 7) [⟨some "A", some 1, some true⟩]
        (some ⟨200, "image/png"⟩) ∧
    generateCacheKey (TileCoords.arr 12 7) [⟨some "A", some 1, some false⟩]
        (some ⟨100, "image/png"⟩)
      ≠ generateCacheKey (TileCoords.arr 12 7) [⟨some "A", some 1, some true⟩]
        (some ⟨200, "image/png"⟩) := by
  refine ⟨by decide, by decide, by decide, by decide, by decide⟩

/-- Claim C6. In the running strategy, when the external compositing operation
fails, the rejection propagates unchanged to the caller and neither the LRU
store, its access ledger, nor the frozen snapshot store is modified by that
request (the hypothesis states that the request actually reaches the
compositor: the cache feature is off or the probe misses). -/
theorem compositor_failure_C6 (st : TileState)
    (compositor : Blob → TileCoords → Except String Blob)
    (templatesArray : List Template) (tileBlob : Blob) (tileCoords : TileCoords)
    (now : Nat) (e : String)
    (hp : st.tileRefreshPaused = false)
    (hmiss : st.cache.smartTileCacheEnabled = false ∨
      mapGet st.cache.smartTileCache
        (generateCacheKey tileCoords templatesArray (some tileBlob)) = none)
    (herr : compositor tileBlob tileCoords = Except.error e) :
    (drawTemplateOnTile st compositor templatesArray tileBlob tileCoords now).1
        = Except.error e ∧
    (drawTemplateOnTile st compositor templatesArray tileBlob tileCoords
        now).2.1.cache.smartTileCache = st.cache.smartTileCache ∧
    (drawTemplateOnTile st compositor templatesArray tileBlob tileCoords
        now).2.1.cache.cacheAccessOrder = st.cache.cacheAccessOrder ∧
    (drawTemplateOnTile st compositor templatesArray tileBlob tileCoords
        now).2.1.frozenTileCache = st.frozenTileCache := by
  rcases hmiss with hen | hget
  · simp [drawTemplateOnTile, hp, hen, herr]
  · by_cases hen : st.cache.smartTileCacheEnabled = true
    · simp [drawTemplateOnTile, hp, hen, getFromSmartCache, hget, herr,
        updateCacheAccess]
    · simp only [Bool.not_eq_true] at hen
      simp [drawTemplateOnTile, hp, hen, herr]

/-- Witness for C6: a failing compositor on the initial running state. -/
theorem compositor_failure_C6_witness :
    (drawTemplateOnTile initialTileState (fun _ _ => Except.error "boom") []
        ⟨3, "png"⟩ (TileCoords.arr 1 1) 0).1 = Except.error "boom" ∧
    (drawTemplateOnTile initialTileState (fun _ _ => Except.error "boom") []
        ⟨3, "png"⟩ (TileCoords.arr 1 1) 0).2.1.cache.smartTileCache
      = initialTileState.cache.smartTileCache ∧
    (drawTemplateOnTile initialTileState (fun _ _ => Except.error "boom") []
        ⟨3, "png"⟩ (TileCoords.arr 1 1) 0).2.1.cache.cacheAccessOrder
      = initialTileState.cache.cacheAccessOrder ∧
    (drawTemplateOnTile initialTileState (fun _ _ => Except.error "boom") []
        ⟨3, "png"⟩ (TileCoords.arr 1 1) 0).2.1.frozenTileCache
      = initialTileState.frozenTileCache :=
  compositor_failure_C6 initialTileState (fun _ _ => Except.error "boom") []
    ⟨3, "png"⟩ (TileCoords.arr 1 1) 0 "boom" rfl (Or.inr (by decide)) rfl

/-- Claim C8. After every sequence of operations on the LRU store (put, get,
clear, toggle) starting from the initial state, the access ledger's key
list is exactly the store's key list: one ledger entry per key in the
store and none for an absent key. -/
theorem ledger_matches_store_C8 {κ ν : Type} [DecidableEq κ]
    (ops : List (CacheOp κ ν)) :
    mapKeys (runOps (initialCacheState κ ν) ops).smartTileCache
      = mapKeys (runOps (initialCacheState κ ν) ops).cacheAccessOrder :=
  (runOps_inv ops initialCacheState_inv).1

/-- Claim C10. Toggling the cache-enabled flag from on to off empties the LRU
store and the access ledger, resets the hit and miss counters to zero, and
persists the zeroed statistics; toggling from off to on performs none of
these resets and leaves the store, ledger, counters and persisted
statistics unchanged. -/
theorem toggle_cache_C10 {κ ν : Type} [DecidableEq κ] (st : CacheState κ ν) :
    (toggleSmartTileCache st).1 = !st.smartTileCacheEnabled ∧
    (toggleSmartTileCache st).2.smartTileCacheEnabled = !st.smartTileCacheEnabled ∧
    (st.smartTileCacheEnabled = true →
      (toggleSmartTileCache st).2.smartTileCache = [] ∧
      (toggleSmartTileCache st).2.cacheAccessOrder = [] ∧
      (toggleSmartTileCache st).2.cacheHits = 0 ∧
      (toggleSmartTileCache st).2.cacheMisses = 0 ∧
      (toggleSmartTileCache st).2.savedStats = (0, 0) :: st.savedStats) ∧
    (st.smartTileCacheEnabled = false →
      (toggleSmartTileCache st).2.smartTileCache = st.smartTileCache ∧
      (toggleSmartTileCache st).2.cacheAccessOrder = st.cacheAccessOrder ∧
      (toggleSmartTileCache st).2.cacheHits = st.cacheHits ∧
      (toggleSmartTileCache st).2.cacheMisses = st.cacheMisses ∧
      (toggleSmartTileCache st).2.savedStats = st.savedStats) := by
  cases hen : st.smartTileCacheEnabled <;>
    simp [toggleSmartTileCache, clearSmartTileCache, saveCacheStatistics, hen]

/-- Claim C7. The frozen snapshot store's size never exceeds its fixed
capacity of 100 entries after any sequence of compositing requests
completes; and whenever the cap would be exceeded (inserting a fresh key
into a full store), exactly the single oldest-inserted entry is evicted
(first-in-first-out, independent of access pattern). -/
theorem frozen_capacity_C7
    (compositor : Blob → TileCoords → Except String Blob)
    (templatesArray : List Template) (reqs : List (Blob × TileCoords × Nat)) :
    (runDraws initialTileState compositor templatesArray
        reqs).frozenTileCache.length ≤ 100 ∧
    (∀ (m : List (String × Blob)) (k : String) (v : Blob),
      k ∉ mapKeys m → m.length = 100 →
      frozenInsert m k v = m.tail ++ [(k, v)]) := by
  constructor
  · exact (runDraws_frozen_inv initialTileState compositor templatesArray reqs
      ⟨List.nodup_nil, by simp [initialTileState]⟩).2
  · intro m k v hfresh hfull
    exact frozenInsert_fifo v hfresh hfull

/-- Witness for C7: a concrete run, and a concrete FIFO eviction on a full
100-entry frozen store. -/
theorem frozen_capacity_C7_witness :
    (runDraws initialTileState (fun b _ => Except.ok b) []
        [(⟨1, "a"⟩, TileCoords.arr 0 0, 0)]).frozenTileCache.length ≤ 100 ∧
    frozenInsert ((List.range 100).map (fun i => (toString i, ⟨1, "a"⟩))) "x" ⟨2, "b"⟩
      = ((List.range 100).map (fun i => (toString i, ⟨1, "a"⟩))).tail
          ++ [("x", ⟨2, "b"⟩)] := by
  have h := frozen_capacity_C7 (fun b _ => Except.ok b) []
    [(⟨1, "a"⟩, TileCoords.arr 0 0, 0)]
  exact ⟨h.1, h.2 _ "x" ⟨2, "b"⟩ (by decide) (by decide)⟩

/-- Claim C9, amended. Statistics are persisted during a store into the
cache exactly when the total access count is divisible by 50 (so a cache
hit never triggers persistence by itself — a plain access, hit or miss,
persists nothing), and clearing the cache always persists zeroed
statistics. -/
theorem stats_persistence_C9_amended {κ ν : Type} [DecidableEq κ]
    (st : CacheState κ ν) (k : κ) (v : ν) (now : Nat)
    (hen : st.smartTileCacheEnabled = true) :
    (storeInSmartCache st k v now).savedStats =
      (if (st.cacheHits + st.cacheMisses) % 50 = 0
        then (st.cacheHits, st.cacheMisses) :: st.savedStats
        else st.savedStats) ∧
    (getFromSmartCache st k now).2.savedStats = st.savedStats ∧
    (clearSmartTileCache st).savedStats = (0, 0) :: st.savedStats ∧
    (clearSmartTileCache st).cacheHits = 0 ∧
    (clearSmartTileCache st).cacheMisses = 0 := by
  have hcond : (!st.smartTileCacheEnabled) = false := by rw [hen]; rfl
  refine ⟨?_, ?_, rfl, rfl, rfl⟩
  · rw [storeInSmartCache, hcond]
    simp only [Bool.false_eq_true, if_false]
    set st2 : CacheState κ ν :=
      updateCacheAccess { st with smartTileCache := mapSet st.smartTileCache k v } k now
      with hst2
    have hh : (evictLRUEntries st2).cacheHits = st.cacheHits := by
      rw [evict_cacheHits]
      rfl
    have hm : (evictLRUEntries st2).cacheMisses = st.cacheMisses := by
      rw [evict_cacheMisses]
      rfl
    have hs : (evictLRUEntries st2).savedStats = st.savedStats := by
      rw [evict_savedStats]
      rfl
    by_cases hmod : (st.cacheHits + st.cacheMisses) % 50 = 0
    · rw [if_pos (by rw [hh, hm]; exact hmod), if_pos hmod]
      simp [saveCacheStatistics, hh, hm, hs]
    · rw [if_neg (by rw [hh, hm]; exact hmod), if_neg hmod]
      exact hs
  · rw [getFromSmartCache, hcond]
    simp only [Bool.false_eq_true, if_false]
    cases hget : mapGet st.smartTileCache k <;> simp [hget, updateCacheAccess]

/-- Witness for C9 (amended): the very first store (0 accesses, divisible
by 50) persists, and a clear persists zeros. -/
theorem stats_persistence_C9_amended_witness :
    (storeInSmartCache (initialCacheState Nat Nat) 1 2 3).savedStats = [(0, 0)] ∧
    (getFromSmartCache (initialCacheState Nat Nat) 1 3).2.savedStats = [] ∧
    (clearSmartTileCache (initialCacheState Nat Nat)).savedStats = [(0, 0)] := by
  have h := stats_persistence_C9_amended (initialCacheState Nat Nat) 1 2 3 rfl
  refine ⟨?_, ?_, ?_⟩
  · rw [h.1]
    rfl
  · exact h.2.1
  · exact h.2.2.1

/-- Claim C9, counterexample. A run of 50 requests — 49 distinct-tile misses
followed by one hit — reaches a total access count of 50 (divisible by 50)
with nothing ever persisted to the settings store: the 50th access is a hit,
the request returns early, and the periodic check (which lives only on the
store path) never fires, refuting the claim that statistics are persisted
after every 50th access regardless of hit or miss. -/
theorem stats_persistence_C9_counterexample :
    (runDraws initialTileState (fun b _ => Except.ok b) []
      (((List.range 49).map (fun i => ((⟨7, "png"⟩ : Blob), TileCoords.arr i 0, 0))) ++
       [((⟨7, "png"⟩ : Blob), TileCoords.arr 0 0, 0)])).cache.cacheHits = 1 ∧
    (runDraws initialTileState (fun b _ => Except.ok b) []
      (((List.range 49).map (fun i => ((⟨7, "png"⟩ : Blob), TileCoords.arr i 0, 0))) ++
       [((⟨7, "png"⟩ : Blob), TileCoords.arr 0 0, 0)])).cache.cacheMisses = 49 ∧
    (1 + 49) % 50 = 0 ∧
    (runDraws initialTileState (fun b _ => Except.ok b) []
      (((List.range 49).map (fun i => ((⟨7, "png"⟩ : Blob), TileCoords.arr i 0, 0))) ++
       [((⟨7, "png"⟩ : Blob), TileCoords.arr 0 0, 0)])).cache.savedStats = [] := by
  set_option maxRecDepth 100000 in
  decide

/-- Witness for C10, covering both toggle directions on concrete states. -/
theorem toggle_cache_C10_witness :
    ((toggleSmartTileCache (initialCacheState Nat Nat)).2.smartTileCache = [] ∧
      (toggleSmartTileCache (initialCacheState Nat Nat)).2.savedStats
        = (0, 0) :: (initialCacheState Nat Nat).savedStats) ∧
    (toggleSmartTileCache
        (CacheState.mk false [(1, 2)] [(1, 3)] 4 5 [(4, 5)] [])).2.smartTileCache
      = [(1, 2)] ∧
    (toggleSmartTileCache
        (CacheState.mk false [(1, 2)] [(1, 3)] 4 5 [(4, 5)] [])).2.savedStats
      = [(4, 5)] := by
  have h1 := toggle_cache_C10 (initialCacheState Nat Nat)
  have h2 := toggle_cache_C10 (CacheState.mk false [(1, 2)] [(1, 3)] 4 5 [(4, 5)] [])
  exact ⟨⟨(h1.2.2.1 rfl).1, (h1.2.2.1 rfl).2.2.2.2⟩,
    (h2.2.2.2 rfl).1, (h2.2.2.2 rfl).2.2.2.2⟩

end WplaceTiles
